import Mathlib

/-!
Verification of the jira-contributor-summary repository.

This file shallowly embeds the Python modules `jira_client.py`, `hierarchy.py`,
`contributors.py` and `cache.py` and proves/refutes the frozen behavioural
claims about them.

Modelling conventions:
* JSON payloads (tickets, search results, cache files) are modelled by the
  inductive type `JValue`.  Python dicts are association lists preserving
  insertion order (as Python dicts do); numbers are rationals.
* Places where the Python code raises an uncaught exception are modelled by
  `PyResult.exn`.  Unbounded recursion is modelled with a fuel parameter;
  exhausted fuel is `PyResult.fuelOut` (the model's stand-in for
  nontermination / stack overflow) and is distinct from an exception.
* A handful of crash-adjacent corners where Python would succeed with
  non-string values in positions that are always strings in the JIRA schema
  (display names, ticket keys) are modelled as `.exn`; each such spot carries
  a comment.  No claim exercises those corners.
* `hash(created)` is Python's process-seeded string hash; it is modelled as an
  arbitrary function parameter `hashFn : JValue → ℕ` (Python's `hash` of a
  list or dict raises, which the embedding reflects).  The code only ever
  uses `hashFn _ % 1000000`, and every theorem quantifies over `hashFn`.
-/

/-- A JSON value, as produced by `json.load` / the JIRA REST client. -/
inductive JValue where
  | null
  | bool (b : Bool)
  | num (q : ℚ)
  | str (s : String)
  | arr (elems : List JValue)
  | obj (entries : List (String × JValue))

/-- Python dicts with string keys, in insertion order. -/
abbrev Dict (α : Type) := List (String × α)

/-- `d.get(k)` / `d[k]` lookup: the first binding of `k`. -/
def dictGet? {α : Type} (d : Dict α) (k : String) : Option α :=
  (d.find? (fun p => p.1 == k)).map (fun p => p.2)

/-- `k in d` membership test. -/
def dictMem {α : Type} (d : Dict α) (k : String) : Bool :=
  d.any (fun p => p.1 == k)

/-- `d[k] = v` assignment: replaces an existing binding in place, otherwise
appends (Python dicts keep insertion order). -/
def dictInsert {α : Type} (d : Dict α) (k : String) (v : α) : Dict α :=
  if d.any (fun p => p.1 == k) then
    d.map (fun p => if p.1 == k then (k, v) else p)
  else
    d ++ [(k, v)]

/-- `list(d.keys())`. -/
def dictKeys {α : Type} (d : Dict α) : List String :=
  d.map (fun p => p.1)

/-- Python truthiness of a JSON value. -/
def JValue.truthy : JValue → Bool
  | .null => false
  | .bool b => b
  | .num q => q != 0
  | .str s => !s.isEmpty
  | .arr l => !l.isEmpty
  | .obj l => !l.isEmpty

/-- `d.get(k, default)` on a dict of JSON values: a `null` value is Python's
`None` and is returned as such; only a missing key yields the default. -/
def pyGetD (d : Dict JValue) (k : String) (default : JValue) : JValue :=
  (dictGet? d k).getD default

/-- `d.get(k)` (default `None`). -/
def pyGet (d : Dict JValue) (k : String) : JValue :=
  pyGetD d k .null

/-- Outcome of running a piece of Python code in the model: normal return,
uncaught exception, or out of modelling fuel (nontermination). -/
inductive PyResult (α : Type) where
  | ok (a : α)
  | exn
  | fuelOut
  deriving DecidableEq

instance : Monad PyResult where
  pure := .ok
  bind := fun r f =>
    match r with
    | .ok a => f a
    | .exn => .exn
    | .fuelOut => .fuelOut

/-- A state-threading fold that stops at the first exception or fuel
exhaustion; models a Python `for` loop whose body may raise. -/
def pyFoldM {σ α : Type} (f : σ → α → PyResult σ) : σ → List α → PyResult σ
  | st, [] => .ok st
  | st, a :: rest =>
    match f st a with
    | .ok st' => pyFoldM f st' rest
    | .exn => .exn
    | .fuelOut => .fuelOut

/-! ## `jira_client.py`: search request construction

`JiraClient.search_tickets(project_key, issue_types=None, max_results=1000)`
builds a JQL query from the project key and the issue types and sends it with
a `maxResults` parameter.  There is no resolution parameter.  We embed the
request that would be sent. -/

/-- The HTTP search request assembled by `JiraClient.search_tickets`. -/
structure SearchRequest where
  jql : String
  maxResults : JValue

/-- `", ".join(f'"{t}"' for t in issue_types)`. -/
def quoteJoin (ts : List String) : String :=
  String.intercalate ", " (ts.map (fun t => "\"" ++ t ++ "\""))

/-- The JQL string built by `search_tickets`: `project = <key>`, plus an
`issuetype in (...)` clause when `issue_types` is truthy (non-`None` and
non-empty), joined with `" AND "`. -/
def searchJql (projectKey : String) (issueTypes : Option (List String)) : String :=
  let parts :=
    ["project = " ++ projectKey] ++
      (match issueTypes with
       | some ts => if ts.isEmpty then [] else ["issuetype in (" ++ quoteJoin ts ++ ")"]
       | none => [])
  String.intercalate " AND " parts

/-- The full request: `search_tickets` forwards its third positional
parameter `max_results` as `maxResults` verbatim. -/
def searchTicketsRequest (projectKey : String) (issueTypes : Option (List String))
    (maxResults : JValue) : SearchRequest :=
  ⟨searchJql projectKey issueTypes, maxResults⟩

/-- The root-selection search issued by `TicketHierarchy.build_hierarchy`:
`self.jira_client.search_tickets(project_key, root_issue_types, "Unresolved")`.
The string `"Unresolved"` is the third positional argument and therefore lands
in `max_results`; `search_tickets` has no resolution parameter.  A `none`
argument models `root_issue_types=None`, which defaults to
`["Feature", "Issue", "Bug"]`. -/
def buildHierarchyRootRequest (projectKey : String)
    (rootIssueTypes : Option (List String)) : SearchRequest :=
  let types := rootIssueTypes.getD ["Feature", "Issue", "Bug"]
  searchTicketsRequest projectKey (some types) (.str "Unresolved")

/-- `startsWithB hay needle`: `needle` is a prefix of `hay`. -/
def startsWithB (hay needle : List Char) : Bool :=
  match hay, needle with
  | _, [] => true
  | [], _ :: _ => false
  | a :: as, b :: bs => a == b && startsWithB as bs

/-- `hasInfixB hay needle`: `needle` occurs contiguously inside `hay`. -/
def hasInfixB (hay needle : List Char) : Bool :=
  match hay with
  | [] => needle.isEmpty
  | _ :: as => startsWithB hay needle || hasInfixB as needle

/-- Substring test on strings. -/
def strContainsSub (hay needle : String) : Bool :=
  hasInfixB hay.toList needle.toList

/-! ## `hierarchy.py`: rank extraction and rank-based sorting

`TicketHierarchy.get_sorted_tickets_by_rank` sorts all ticket keys by an
inner `get_rank` function. -/

/-- `ticket_data.get("fields", {})` followed by use of the result as a dict:
a missing `fields` member defaults to `{}`; a present non-dict value (such as
`null`) makes the next `.get` call raise. -/
def fieldsOf (t : JValue) : PyResult (Dict JValue) :=
  match t with
  | .obj l =>
    match dictGet? l "fields" with
    | none => .ok []
    | some (.obj f) => .ok f
    | some _ => .exn
  | _ => .exn

/-- Numeric value of a digit string (most significant first). -/
def digitsVal (l : List Char) : ℕ :=
  l.foldl (fun a c => 10 * a + (c.toNat - 48)) 0

/-- `str.split('.')` on a character list. -/
def splitDot : List Char → List (List Char)
  | [] => [[]]
  | '.' :: rest => [] :: splitDot rest
  | c :: rest =>
    match splitDot rest with
    | [] => [[c]]
    | g :: gs => (c :: g) :: gs

/-- Python `float()` on an unsigned decimal literal: `digits`, `digits.digits`,
`digits.` or `.digits`; anything else (in particular two or more dots) raises,
modelled as `none`. -/
def parseUnsignedDecimal (l : List Char) : Option ℚ :=
  match splitDot l with
  | [ip] =>
    if !ip.isEmpty && ip.all Char.isDigit then some (digitsVal ip) else none
  | [ip, fp] =>
    if !(ip ++ fp).isEmpty && (ip ++ fp).all Char.isDigit then
      some ((digitsVal ip : ℚ) + (digitsVal fp : ℚ) / (10 : ℚ) ^ fp.length)
    else none
  | _ => none

/-- Python `float(s)`: an optional sign followed by a decimal literal.
Exponents, `inf`/`nan` and surrounding whitespace are outside the model (none
of those shapes can reach the call sites given the guards around them). -/
def pyFloatOfStr (s : String) : Option ℚ :=
  match s.toList with
  | '-' :: rest => (parseUnsignedDecimal rest).map (fun q => -q)
  | '+' :: rest => parseUnsignedDecimal rest
  | l => parseUnsignedDecimal l

/-- The guard `rank_value.replace(".", "").isdigit()`: after removing dots the
string is non-empty and all digits (Unicode digit classes beyond ASCII are
outside the model). -/
def digitGuard (s : String) : Bool :=
  let stripped := s.toList.filter (fun c => c ≠ '.')
  !stripped.isEmpty && stripped.all Char.isDigit

/-- `float(x)` applied to the `"id"` member of a priority-like dict; `none`
models the caught `ValueError`/`TypeError`.  Python's `bool` is an `int`, so
`float(True) == 1.0`. -/
def pyFloatAny (v : JValue) : Option ℚ :=
  match v with
  | .num q => some q
  | .bool b => some (if b then 1 else 0)
  | .str s => pyFloatOfStr s
  | _ => none

/-- Rank values: a parsed numeric rank, or `float("inf")` (`⊤`) for tickets
with no usable rank. -/
abbrev ERank := WithTop ℚ

/-- The candidate rank fields scanned by `get_rank`, in order. -/
def rankFieldNames : List String :=
  ["rank", "priority", "customfield_10020", "customfield_10021"]

/-- One pass of `get_rank`'s field loop.  For each field in order:
a missing or `None` value falls through; an `int`/`float` (or `bool`) is
returned; a string passing the digit guard is parsed with `float()` — which
raises (uncaught) on shapes like `"1.2.3"`; a dict with an `"id"` member is
tried with `float()`, failures being caught and falling through. -/
def rankFromFieldList (fields : Dict JValue) : List String → PyResult (Option ℚ)
  | [] => .ok none
  | f :: fs =>
    match dictGet? fields f with
    | none => rankFromFieldList fields fs
    | some .null => rankFromFieldList fields fs
    | some (.num q) => .ok (some q)
    | some (.bool b) => .ok (some (if b then 1 else 0))
    | some (.str s) =>
      if digitGuard s then
        match pyFloatOfStr s with
        | some q => .ok (some q)
        | none => .exn
      else rankFromFieldList fields fs
    | some (.arr _) => rankFromFieldList fields fs
    | some (.obj l) =>
      match dictGet? l "id" with
      | some idv =>
        match pyFloatAny idv with
        | some q => .ok (some q)
        | none => rankFromFieldList fields fs
      | none => rankFromFieldList fields fs

/-- The rank-field loop over the four candidate fields; `.ok none` means the
loop fell through to the creation-date fallback. -/
def rankFromFields (fields : Dict JValue) : PyResult (Option ℚ) :=
  rankFromFieldList fields rankFieldNames

/-- `get_rank(ticket_key)`: rank field if parseable, else
`hash(created) % 1000000` when a truthy creation value exists, else
`float("inf")`. -/
def getRank (hashFn : JValue → ℕ) (flat : Dict JValue) (k : String) : PyResult ERank :=
  match fieldsOf ((dictGet? flat k).getD (.obj [])) with
  | .exn => .exn
  | .fuelOut => .fuelOut
  | .ok fields =>
    match rankFromFields fields with
    | .exn => .exn
    | .fuelOut => .fuelOut
    | .ok (some q) => .ok (q : ERank)
    | .ok none =>
      let created := pyGetD fields "created" (.str "")
      if created.truthy then
        match created with
        | .arr _ => .exn   -- hash() of a list raises
        | .obj _ => .exn   -- hash() of a dict raises
        | c => .ok (((hashFn c % 1000000 : ℕ) : ℚ) : ERank)
      else
        .ok (⊤ : ERank)

/-- Stable insertion of a keyed element into a rank-sorted list: it goes in
front of the first element whose rank is not smaller. -/
def insortPair (p : String × ERank) : List (String × ERank) → List (String × ERank)
  | [] => [p]
  | q :: qs => if p.2 ≤ q.2 then p :: q :: qs else q :: insortPair p qs

/-- Stable insertion sort on rank (equal ranks keep their original order,
like Python's stable `sorted`). -/
def insortPairs : List (String × ERank) → List (String × ERank)
  | [] => []
  | p :: ps => insortPair p (insortPairs ps)

/-- CPython's `sorted(keys, key=get_rank)` first computes the key of every
element in order (propagating the first exception), then stable-sorts. -/
def collectRanks (hashFn : JValue → ℕ) (flat : Dict JValue) :
    List String → PyResult (List (String × ERank))
  | [] => .ok []
  | k :: ks =>
    match getRank hashFn flat k with
    | .ok r =>
      match collectRanks hashFn flat ks with
      | .ok rest => .ok ((k, r) :: rest)
      | .exn => .exn
      | .fuelOut => .fuelOut
    | .exn => .exn
    | .fuelOut => .fuelOut

/-- `get_sorted_tickets_by_rank()`. -/
def sortedTicketsByRank (hashFn : JValue → ℕ) (flat : Dict JValue) :
    PyResult (List String) :=
  match collectRanks hashFn flat (dictKeys flat) with
  | .ok ranks => .ok ((insortPairs ranks).map (fun p => p.1))
  | .exn => .exn
  | .fuelOut => .fuelOut

/-- The rank `get_rank` assigns to a key, defaulting to `⊤` (only used in
statements under a hypothesis that guarantees success). -/
def rankOf (hashFn : JValue → ℕ) (flat : Dict JValue) (k : String) : ERank :=
  match getRank hashFn flat k with
  | .ok r => r
  | _ => ⊤


/-- Claim-C2 predicate (follows the claim's words, for refutation): the rank
field loop of `get_rank` falls through for this key ("rank field is absent"). -/
def ranklessKey (flat : Dict JValue) (k : String) : Prop :=
  ∃ f, fieldsOf ((dictGet? flat k).getD (.obj [])) = .ok f ∧
    rankFromFields f = .ok none

/-- Claim-C2 predicate (follows the claim's words, for refutation): the rank
field loop finds a parseable numeric rank for this key. -/
def parseableRankKey (flat : Dict JValue) (k : String) : Prop :=
  ∃ f q, fieldsOf ((dictGet? flat k).getD (.obj [])) = .ok f ∧
    rankFromFields f = .ok (some q)

/-- Claim C2 as stated: in the output of `get_sorted_tickets_by_rank`, every
rank-less ticket comes after every ticket with a parseable numeric rank. -/
def ranklessAlwaysLastProp : Prop :=
  ∀ (hashFn : JValue → ℕ) (flat : Dict JValue) (l : List String),
    sortedTicketsByRank hashFn flat = .ok l →
    ∀ i j : Fin l.length,
      ranklessKey flat (l.get i) → parseableRankKey flat (l.get j) →
      (j : ℕ) < (i : ℕ)

/-- Counterexample input for C2: "T1" has parseable rank 2000000; "T2" has no
rank field but has a creation date, so its fallback key is
`hash(created) % 1000000 < 1000000 < 2000000`. -/
def c2FlatCounter : Dict JValue :=
  [("T1", .obj [("fields", .obj [("rank", .num 2000000)])]),
   ("T2", .obj [("fields", .obj [("created", .str "2024-01-01")])])]

/-- Witness input for the amended C2: a ranked ticket, a fallback ticket and a
ticket with neither rank nor creation date. -/
def c2FlatWitness : Dict JValue :=
  [("T1", .obj [("fields", .obj [("rank", .num 5)])]),
   ("T2", .obj [("fields", .obj [("created", .str "2024-02-02")])]),
   ("T3", .obj [("fields", .obj [])])]

/-! ## `hierarchy.py`: child discovery and recursive traversal -/

/-- The external JIRA collaborators as oracles: `get_ticket` (`none` models a
raised request error) and the two JQL child searches (the issue lists the
queries return; a failed search is indistinguishable from an empty result
because the exception is caught before any issue is processed). -/
structure JiraOracles where
  fetch : String → Option JValue
  epicSearch : String → List JValue
  parentSearch : String → List JValue

/-- The loop bodies of `_search_tickets_with_epic_link` /
`_search_tickets_with_parent_link`: collect `issue.get("key")` for each
result, skipping falsy keys and keys already collected (dedup within this
search only).  A non-dict issue makes `.get` raise, which the surrounding
`except` turns into returning the keys gathered so far.  Truthy non-string
keys are outside the model (JIRA keys are strings). -/
def searchChildKeys : List JValue → List String → List String
  | [], acc => acc
  | issue :: rest, acc =>
    match issue with
    | .obj l =>
      match dictGet? l "key" with
      | some (.str s) =>
        if !s.isEmpty && !acc.contains s then searchChildKeys rest (acc ++ [s])
        else searchChildKeys rest acc
      | _ => searchChildKeys rest acc
    | _ => acc

/-- `for subtask in subtasks: child_keys.append(subtask["key"])` over an
already-iterable value: a subtask that is not a dict, or lacks a `"key"`,
raises (uncaught); non-string keys are outside the model. -/
def subtaskKeyList : List JValue → PyResult (List String)
  | [] => .ok []
  | .obj l :: rest =>
    match dictGet? l "key" with
    | some (.str s) =>
      match subtaskKeyList rest with
      | .ok ks => .ok (s :: ks)
      | .exn => .exn
      | .fuelOut => .fuelOut
    | some _ => .exn
    | none => .exn
  | _ :: _ => .exn

/-- Iterating `fields.get("subtasks", [])`: a list is iterated; an empty
string or empty dict iterates zero times; any other non-list value raises
`TypeError` (or, for a non-empty string/dict, raises on the first element). -/
def subtaskKeysOf (v : JValue) : PyResult (List String) :=
  match v with
  | .arr l => subtaskKeyList l
  | .str s => if s.isEmpty then .ok [] else .exn
  | .obj l => if l.isEmpty then .ok [] else .exn
  | _ => .exn

/-- ASCII lowercasing (`str.lower()`; issue-type names are ASCII, so the
Unicode cases are immaterial). -/
def charLower (c : Char) : Char :=
  if 65 ≤ c.toNat ∧ c.toNat ≤ 90 then Char.ofNat (c.toNat + 32) else c

/-- `str.lower()` on a string. -/
def pyLower (s : String) : String :=
  String.mk (s.toList.map charLower)

/-- `issue_type.get("name", "").lower() if issue_type else ""` where
`issue_type = fields.get("issuetype", {})`: falsy values give `""`; a truthy
non-dict has no `.get`; a present non-string `name` (e.g. `null`) has no
`.lower()`. -/
def issueTypeNameOf (fields : Dict JValue) : PyResult String :=
  let it := pyGetD fields "issuetype" (.obj [])
  if it.truthy then
    match it with
    | .obj l =>
      match dictGet? l "name" with
      | none => .ok ""
      | some (.str s) => .ok (pyLower s)
      | some _ => .exn
    | _ => .exn
  else .ok ""

/-- The type-conditional linked-issue search of `_get_child_ticket_keys`:
issue types containing "epic" trigger the Epic Link search, those containing
"feature"/"initiative"/"theme" the Parent Link search, in that order; other
types search nothing.  Each search deduplicates internally. -/
def typeSearchChildren (oracles : JiraOracles) (typeName key : String) : List String :=
  if strContainsSub typeName "epic" then
    searchChildKeys (oracles.epicSearch key) []
  else if strContainsSub typeName "feature" || strContainsSub typeName "initiative"
      || strContainsSub typeName "theme" then
    searchChildKeys (oracles.parentSearch key) []
  else []

/-- `_get_child_ticket_keys(ticket_data)`: subtask keys first, then the
type-conditional search results appended without rechecking against the
subtask keys.  A falsy `ticket_data.get("key")` returns `[]` early; truthy
non-string keys are outside the model. -/
def getChildTicketKeys (oracles : JiraOracles) (t : JValue) : PyResult (List String) :=
  match t with
  | .obj tl =>
    match pyGet tl "key" with
    | .str key =>
      if key.isEmpty then .ok []
      else
        match pyGetD tl "fields" (.obj []) with
        | .obj fl =>
          match subtaskKeysOf (pyGetD fl "subtasks" (.arr [])) with
          | .ok sub =>
            match issueTypeNameOf fl with
            | .ok typeName => .ok (sub ++ typeSearchChildren oracles typeName key)
            | .exn => .exn
            | .fuelOut => .fuelOut
          | .exn => .exn
          | .fuelOut => .fuelOut
        | _ => .exn   -- a present non-dict `fields` makes `.get("subtasks", ...)` raise
    | .null => .ok []
    | .bool false => .ok []
    | .num q => if q = 0 then .ok [] else .exn
    | .arr l => if l.isEmpty then .ok [] else .exn
    | .obj l => if l.isEmpty then .ok [] else .exn
    | .bool true => .exn
  | _ => .exn

/-- The mutable state of a `TicketHierarchy` instance. -/
structure HierarchyState where
  allTickets : Dict JValue
  hierarchy : Dict (List String)
  rootTickets : List String

/-- `_process_ticket_recursive(ticket_key, ticket_data)`: skip already-seen
keys; fetch when no data was passed, abandoning the branch (returning with
the state unchanged) if the fetch raises; store the ticket; derive children
(uncaught exceptions from subtask shapes propagate); record a non-empty child
list in the hierarchy; recurse into each child in order. -/
def processTicketRecursive (oracles : JiraOracles) :
    Nat → HierarchyState → String → Option JValue → PyResult HierarchyState
  | 0, _, _, _ => .fuelOut
  | fuel + 1, st, k, data? =>
    if dictMem st.allTickets k then .ok st
    else
      let step := fun (d : JValue) =>
        let st1 : HierarchyState := { st with allTickets := dictInsert st.allTickets k d }
        match getChildTicketKeys oracles d with
        | .exn => .exn
        | .fuelOut => .fuelOut
        | .ok childKeys =>
          let st2 : HierarchyState :=
            if childKeys.isEmpty then st1
            else { st1 with hierarchy := dictInsert st1.hierarchy k childKeys }
          pyFoldM (fun s c => processTicketRecursive oracles fuel s c none) st2 childKeys
      match data? with
      | none =>
        match oracles.fetch k with
        | none => .ok st   -- fetch error: logged, branch abandoned, traversal continues
        | some d => step d
      | some d => step d

/-- `build_hierarchy_from_ticket(ticket_key)`: a failed fetch of the explicit
starting ticket is re-raised to the caller; otherwise the key is appended to
`root_tickets` and processed recursively with the fetched data. -/
def buildHierarchyFromTicket (oracles : JiraOracles) (fuel : Nat)
    (st : HierarchyState) (k : String) : PyResult HierarchyState :=
  match oracles.fetch k with
  | none => .exn
  | some d =>
    processTicketRecursive oracles fuel
      { st with rootTickets := st.rootTickets ++ [k] } k (some d)

/-- Claim C3 as stated: every child-key list produced during hierarchy
building is duplicate-free. -/
def childKeysNodupProp : Prop :=
  ∀ (oracles : JiraOracles) (t : JValue) (keys : List String),
    getChildTicketKeys oracles t = .ok keys → keys.Nodup

/-- Counterexample input for C3: "P-2" is both a subtask and an Epic Link
search result. -/
def c3Oracles : JiraOracles :=
  ⟨fun _ => none, fun _ => [.obj [("key", .str "P-2")]], fun _ => []⟩

/-- Counterexample ticket for C3: an Epic with subtask "P-2". -/
def c3Ticket : JValue :=
  .obj [("key", .str "P-1"),
        ("fields", .obj [("issuetype", .obj [("name", .str "Epic")]),
                         ("subtasks", .arr [.obj [("key", .str "P-2")]])])]

/-- Concrete oracles for the C6 witness: every fetch fails. -/
def c6Oracles : JiraOracles :=
  ⟨fun _ => none, fun _ => [], fun _ => []⟩

/-- Empty hierarchy-builder state. -/
def emptyHierarchyState : HierarchyState :=
  ⟨[], [], []⟩


/-! ## `hierarchy.py`: display flattening -/

/-- One entry of the flattened display list. -/
structure DisplayItem where
  key : String
  summary : JValue
  level : Nat
  ticketData : JValue

/-- `_find_true_root_tickets()`: all flat-map keys minus every key that
occurs as a child of a parent that is itself in the flat map. -/
def findTrueRoots (flat : Dict JValue) (hier : Dict (List String)) : Finset String :=
  let withParents : List String :=
    hier.foldl (fun acc p => if (dictKeys flat).contains p.1 then acc ++ p.2 else acc) []
  (dictKeys flat).toFinset \ withParents.toFinset

/-- `_add_ticket_to_display(ticket_key, display_data, processed, level)`:
skip already-emitted keys; mark the key processed; append a display item
(missing tickets render with empty data); re-sort all tickets by rank (as the
code does on every call) and recurse into this key's children in rank order
at `level + 1`. -/
def addTicketToDisplay (hashFn : JValue → ℕ) (flat : Dict JValue)
    (hier : Dict (List String)) :
    Nat → String → Nat → List DisplayItem × Finset String →
      PyResult (List DisplayItem × Finset String)
  | 0, _, _, _ => .fuelOut
  | fuel + 1, k, level, dp =>
    if k ∈ dp.2 then .ok dp
    else
      match fieldsOf ((dictGet? flat k).getD (.obj [])) with
      | .exn => .exn
      | .fuelOut => .fuelOut
      | .ok fields =>
        let item : DisplayItem :=
          ⟨k, pyGetD fields "summary" (.str ""), level, (dictGet? flat k).getD (.obj [])⟩
        let children := (dictGet? hier k).getD []
        match sortedTicketsByRank hashFn flat with
        | .exn => .exn
        | .fuelOut => .fuelOut
        | .ok sortedAll =>
          pyFoldM (fun dp' c => addTicketToDisplay hashFn flat hier fuel c (level + 1) dp')
            (dp.1 ++ [item], insert k dp.2)
            (sortedAll.filter (fun key => children.contains key))

/-- `get_hierarchy_for_display()`: rank-sort the true roots, then emit each
not-yet-processed root at level 0 with its subtree. -/
def getHierarchyForDisplay (hashFn : JValue → ℕ) (flat : Dict JValue)
    (hier : Dict (List String)) (fuel : Nat) : PyResult (List DisplayItem) :=
  match sortedTicketsByRank hashFn flat with
  | .exn => .exn
  | .fuelOut => .fuelOut
  | .ok sortedAll =>
    match pyFoldM
        (fun dp r => if r ∈ dp.2 then .ok dp else addTicketToDisplay hashFn flat hier fuel r 0 dp)
        (([], ∅) : List DisplayItem × Finset String)
        (sortedAll.filter (fun key => decide (key ∈ findTrueRoots flat hier))) with
    | .ok dp => .ok dp.1
    | .exn => .exn
    | .fuelOut => .fuelOut

/-- Projection of a display result to (key, level) pairs, for concrete
evaluation. -/
def displayKeyLevels (r : PyResult (List DisplayItem)) : PyResult (List (String × Nat)) :=
  match r with
  | .ok l => .ok (l.map (fun d => (d.key, d.level)))
  | .exn => .exn
  | .fuelOut => .fuelOut

/-- C7 concrete input: a diamond.  "C" is a child of both "A" and "B"; ranks
order "A" before "B". -/
def c7Flat : Dict JValue :=
  [("R", .obj [("fields", .obj [("rank", .num 0), ("summary", .str "root")])]),
   ("A", .obj [("fields", .obj [("rank", .num 1)])]),
   ("B", .obj [("fields", .obj [("rank", .num 2)])]),
   ("C", .obj [("fields", .obj [("rank", .num 3)])])]

/-- C7 concrete hierarchy for the diamond. -/
def c7Hier : Dict (List String) :=
  [("R", ["A", "B"]), ("A", ["C"]), ("B", ["C"])]

/-! ## `contributors.py`: per-ticket extraction -/

/-- `str.startswith(prefix)`. -/
def pyStartsWith (s pre : String) : Bool :=
  startsWithB s.toList pre.toList

/-- The `d.get("displayName")`-truthy-then-`add` pattern: a truthy string is
added; falsy values contribute nothing; truthy non-string display names are
outside the model (JIRA display names are strings). -/
def jDisplayNameSet (a : Dict JValue) : PyResult (Finset String) :=
  match dictGet? a "displayName" with
  | some (.str s) => if s.isEmpty then .ok ∅ else .ok {s}
  | none => .ok ∅
  | some .null => .ok ∅
  | some (.bool false) => .ok ∅
  | some (.bool true) => .exn
  | some (.num q) => if q = 0 then .ok ∅ else .exn
  | some (.arr l) => if l.isEmpty then .ok ∅ else .exn
  | some (.obj l) => if l.isEmpty then .ok ∅ else .exn

/-- `x and x.get("displayName")` then `add`, for assignee/reporter values:
falsy values short-circuit to nothing; a truthy non-dict has no `.get` and
raises. -/
def personNameSet (v : JValue) : PyResult (Finset String) :=
  match v with
  | .null => .ok ∅
  | .bool false => .ok ∅
  | .bool true => .exn
  | .num q => if q = 0 then .ok ∅ else .exn
  | .str s => if s.isEmpty then .ok ∅ else .exn
  | .arr l => if l.isEmpty then .ok ∅ else .exn
  | .obj a => if a.isEmpty then .ok ∅ else jDisplayNameSet a

/-- One element of a list-valued custom/contributors field:
`isinstance(item, dict) and item.get("displayName")` then `add`; non-dict
items are skipped. -/
def customItemSet (item : JValue) : PyResult (Finset String) :=
  match item with
  | .obj a => jDisplayNameSet a
  | _ => .ok ∅

/-- Union over a list-valued field. -/
def customListSet : List JValue → PyResult (Finset String)
  | [] => .ok ∅
  | item :: rest =>
    match customItemSet item with
    | .ok s =>
      match customListSet rest with
      | .ok t => .ok (s ∪ t)
      | .exn => .exn
      | .fuelOut => .fuelOut
    | .exn => .exn
    | .fuelOut => .fuelOut

/-- Value handling shared by `customfield_*` fields and the `contributors`
field: a truthy list is scanned item-wise, a truthy dict is treated as a
single person, anything else is ignored. -/
def customFieldSet (v : JValue) : PyResult (Finset String) :=
  if v.truthy then
    match v with
    | .arr items => customListSet items
    | .obj a => jDisplayNameSet a
    | _ => .ok ∅
  else .ok ∅

/-- The `for field_name, field_value in fields.items()` scan for
`customfield_*` person holders, in dict order. -/
def customFieldsScan : Dict JValue → PyResult (Finset String)
  | [] => .ok ∅
  | (name, v) :: rest =>
    match (if pyStartsWith name "customfield_" then customFieldSet v else .ok ∅) with
    | .ok s =>
      match customFieldsScan rest with
      | .ok t => .ok (s ∪ t)
      | .exn => .exn
      | .fuelOut => .fuelOut
    | .exn => .exn
    | .fuelOut => .fuelOut

/-- The body of `extract_contributors_from_ticket` over a fields dict:
assignee ∪ custom fields ∪ contributors field ∪ reporter. -/
def extractFromFields (f : Dict JValue) : PyResult (Finset String) := do
  let a ← personNameSet (pyGet f "assignee")
  let cf ← customFieldsScan f
  let cb ← customFieldSet (pyGet f "contributors")
  let r ← personNameSet (pyGet f "reporter")
  pure (a ∪ cf ∪ cb ∪ r)

/-- `extract_contributors_from_ticket(ticket_data)`: `fields` defaults to
`{}` when missing; a present non-dict `fields` makes the first `.get`
raise. -/
def extractContributorsFromTicket (t : JValue) : PyResult (Finset String) :=
  match t with
  | .obj tl =>
    match dictGet? tl "fields" with
    | none => extractFromFields []
    | some (.obj f) => extractFromFields f
    | some _ => .exn
  | _ => .exn

/-! ## `contributors.py`: memoized subtree aggregation -/

/-- The state of a `ContributorExtractor`: the per-key memo
`contributor_cache`. -/
structure CExtractor where
  cache : Dict (Finset String)

/-- `clear_cache()`. -/
def clearContributorCache (_ex : CExtractor) : CExtractor :=
  ⟨[]⟩

/-- The contributors of the ticket itself: extraction when the key is in the
flat map, `∅` otherwise. -/
def ownContributors (flat : Dict JValue) (k : String) : PyResult (Finset String) :=
  match dictGet? flat k with
  | some t => extractContributorsFromTicket t
  | none => .ok ∅

/-- `ticket_hierarchy.get(ticket_key, [])`. -/
def childrenOf (hier : Dict (List String)) (k : String) : List String :=
  (dictGet? hier k).getD []

/-- `get_all_contributors_for_ticket_hierarchy(k, all_tickets, hierarchy)`:
on a cache hit return the memoized set (Python returns a copy; sets are pure
values here, the aliasing discipline is modelled separately on a heap below);
otherwise union the ticket's own contributors with the recursive result for
every child, memoize, and return.  The memo is only written here, and only
for keys not already present. -/
def getAllContrib (flat : Dict JValue) (hier : Dict (List String)) :
    Nat → CExtractor → String → PyResult (Finset String × CExtractor)
  | 0, _, _ => .fuelOut
  | fuel + 1, ex, k =>
    match dictGet? ex.cache k with
    | some s => .ok (s, ex)
    | none =>
      match ownContributors flat k with
      | .exn => .exn
      | .fuelOut => .fuelOut
      | .ok own =>
        match pyFoldM
            (fun acc c =>
              match getAllContrib flat hier fuel acc.2 c with
              | .ok sc => .ok (acc.1 ∪ sc.1, sc.2)
              | .exn => .exn
              | .fuelOut => .fuelOut)
            ((own, ex) : Finset String × CExtractor)
            (childrenOf hier k) with
        | .ok acc => .ok (acc.1, ⟨dictInsert acc.2.cache k acc.1⟩)
        | .exn => .exn
        | .fuelOut => .fuelOut

/-- `get_contributor_summary(all_tickets, hierarchy)`: one aggregation per
flat-map key, sharing the extractor's memo. -/
def getContributorSummary (flat : Dict JValue) (hier : Dict (List String))
    (fuel : Nat) (ex0 : CExtractor) :
    PyResult (Dict (Finset String) × CExtractor) :=
  pyFoldM
    (fun acc k =>
      match getAllContrib flat hier fuel acc.2 k with
      | .ok sc => .ok (dictInsert acc.1 k sc.1, sc.2)
      | .exn => .exn
      | .fuelOut => .fuelOut)
    (([], ex0) : Dict (Finset String) × CExtractor)
    (dictKeys flat)

/-- The cached value for a key, defaulting to `∅`. -/
def cacheValD (ex : CExtractor) (c : String) : Finset String :=
  (dictGet? ex.cache c).getD ∅

/-- Union of a list of sets (children's aggregates). -/
def unionList : List (Finset String) → Finset String
  | [] => ∅
  | s :: rest => s ∪ unionList rest

/-- C4's concrete scenario: parent "P" with direct contributors {B} whose
only child is the leaf "C" with contributors {A}. -/
def c4Flat : Dict JValue :=
  [("P", .obj [("fields", .obj [("assignee", .obj [("displayName", .str "B")])])]),
   ("C", .obj [("fields", .obj [("assignee", .obj [("displayName", .str "A")])])])]

/-- C4's concrete hierarchy. -/
def c4Hier : Dict (List String) :=
  [("P", ["C"])]

/-- Invariant of the display walk: emitted keys are duplicate-free and all of
them are marked processed. -/
def DisplayInv (dp : List DisplayItem × Finset String) : Prop :=
  (dp.1.map DisplayItem.key).Nodup ∧ ∀ it ∈ dp.1, it.key ∈ dp.2

/-! ### Pure (unmemoized) aggregation semantics

The memoized `getAllContrib` is proved correct against this fuel-indexed
reference recursion, which computes own-contributors ∪ children's aggregates
with no cache. -/

/-- Children loop of the reference recursion, abstracted over the recursive
call. -/
def aggPureList (f : String → PyResult (Finset String)) :
    List String → PyResult (Finset String)
  | [] => .ok ∅
  | c :: cs =>
    match f c with
    | .ok s =>
      match aggPureList f cs with
      | .ok t => .ok (s ∪ t)
      | .exn => .exn
      | .fuelOut => .fuelOut
    | .exn => .exn
    | .fuelOut => .fuelOut

/-- Reference aggregation: a ticket's own contributors unioned with the
aggregates of its children. -/
def aggPure (flat : Dict JValue) (hier : Dict (List String)) :
    Nat → String → PyResult (Finset String)
  | 0, _ => .fuelOut
  | fuel + 1, k =>
    match ownContributors flat k with
    | .exn => .exn
    | .fuelOut => .fuelOut
    | .ok own =>
      match aggPureList (aggPure flat hier fuel) (childrenOf hier k) with
      | .ok rest => .ok (own ∪ rest)
      | .exn => .exn
      | .fuelOut => .fuelOut

/-- `s` is the subtree-contributor set of `k`: the reference recursion
reaches it with some fuel. -/
def AggVal (flat : Dict JValue) (hier : Dict (List String))
    (k : String) (s : Finset String) : Prop :=
  ∃ n, aggPure flat hier n k = .ok s

/-- Every memoized entry holds the key's true subtree-contributor set. -/
def CacheOK (flat : Dict JValue) (hier : Dict (List String))
    (ex : CExtractor) : Prop :=
  ∀ k s, dictGet? ex.cache k = some s → AggVal flat hier k s

/-- Cache bindings are preserved (with their values). -/
def cacheExtends (ex ex' : CExtractor) : Prop :=
  ∀ j v, dictGet? ex.cache j = some v → dictGet? ex'.cache j = some v

/-- Entry `k` of a contributor summary computed from a fresh extractor, for
concrete evaluation. -/
def summaryEntry (flat : Dict JValue) (hier : Dict (List String))
    (fuel : Nat) (k : String) : PyResult (Option (Finset String)) :=
  match getContributorSummary flat hier fuel ⟨[]⟩ with
  | .ok sc => .ok (dictGet? sc.1 k)
  | .exn => .exn
  | .fuelOut => .fuelOut

/-- C5's mutated flat map: the child's contributor changed from "A" to "Z"
after the first aggregation. -/
def c4FlatMutated : Dict JValue :=
  [("P", .obj [("fields", .obj [("assignee", .obj [("displayName", .str "B")])])]),
   ("C", .obj [("fields", .obj [("assignee", .obj [("displayName", .str "Z")])])])]

/-! ## `contributors.py`: aliasing discipline of the memo (heap model)

The pure model above treats sets as values.  To state that the set returned
by `get_all_contributors_for_ticket_hierarchy` is a *copy*, independent of
the memo (C9), set objects are modelled explicitly: a heap maps object ids to
contents, the memo maps keys to object ids, `set()`/`.copy()` allocate and
`.update()` mutates in place — exactly as the Python code does. -/

/-- A heap of set objects plus the memo of `ContributorExtractor`. -/
structure SetHeap where
  heap : List (Nat × Finset String)
  cache : Dict Nat
  next : Nat

/-- Contents of set object `i`. -/
def hGet (h : SetHeap) (i : Nat) : Finset String :=
  (((h.heap.find? (fun p => p.1 == i))).map (fun p => p.2)).getD ∅

/-- Allocate a fresh set object (`set()` / `.copy()`). -/
def hAlloc (h : SetHeap) (s : Finset String) : Nat × SetHeap :=
  (h.next, ⟨h.heap ++ [(h.next, s)], h.cache, h.next + 1⟩)

/-- In-place mutation of set object `i` (`.update()` etc.). -/
def hSet (h : SetHeap) (i : Nat) (s : Finset String) : SetHeap :=
  ⟨h.heap.map (fun p => if p.1 == i then (i, s) else p), h.cache, h.next⟩

/-- `get_all_contributors_for_ticket_hierarchy` on the heap model.  A cache
hit returns a fresh copy of the memoized object; a miss allocates
`all_contributors = set()`, updates it in place with the ticket's own
contributors and each child's result, memoizes a *copy*, and returns the
working object itself. -/
def getAllContribH (flat : Dict JValue) (hier : Dict (List String)) :
    Nat → SetHeap → String → PyResult (Nat × SetHeap)
  | 0, _, _ => .fuelOut
  | fuel + 1, h, k =>
    match dictGet? h.cache k with
    | some sid => .ok (hAlloc h (hGet h sid))
    | none =>
      -- `all_contributors = set()` allocates the working object; its id is
      -- `(hAlloc h ∅).1 = h.next`, written out to keep proofs syntactic
      match ownContributors flat k with
      | .exn => .exn
      | .fuelOut => .fuelOut
      | .ok own =>
        match pyFoldM
            (fun hh c =>
              match getAllContribH flat hier fuel hh c with
              | .ok ch => .ok (hSet ch.2 h.next (hGet ch.2 h.next ∪ hGet ch.2 ch.1))
              | .exn => .exn
              | .fuelOut => .fuelOut)
            (hSet (hAlloc h ∅).2 h.next (hGet (hAlloc h ∅).2 h.next ∪ own))
            (childrenOf hier k) with
        | .ok h3 =>
          -- `self.contributor_cache[k] = all_contributors.copy()`, then
          -- `return all_contributors`
          .ok (h.next,
            ⟨(hAlloc h3 (hGet h3 h.next)).2.heap,
             dictInsert (hAlloc h3 (hGet h3 h.next)).2.cache k
               (hAlloc h3 (hGet h3 h.next)).1,
             (hAlloc h3 (hGet h3 h.next)).2.next⟩)
        | .exn => .exn
        | .fuelOut => .fuelOut

/-- Well-formed heap: every allocated id and every memoized id is below the
allocation counter. -/
def HeapWF (h : SetHeap) : Prop :=
  (∀ p ∈ h.heap, p.1 < h.next) ∧ (∀ q ∈ h.cache, q.2 < h.next)

/-- Shape of a heap-model run (returned id, memo, allocation counter),
for concrete evaluation without comparing heap contents. -/
def hRunShape (r : PyResult (Nat × SetHeap)) : PyResult (Nat × Dict Nat × Nat) :=
  match r with
  | .ok (rid, h) => .ok (rid, h.cache, h.next)
  | .exn => .exn
  | .fuelOut => .fuelOut

/-! ## `cache.py`: on-disk ticket cache -/

/-- One cache file on disk: missing, unreadable/unparsable, or a JSON object
(the only top-level shape the code ever writes; a hand-edited non-object top
level is outside the model). -/
inductive FileContent where
  | missing
  | corrupt
  | obj (entries : Dict JValue)

/-- The cache directory: `tickets.json` and `metadata.json`. -/
structure CacheFS where
  tickets : FileContent
  metadata : FileContent

/-- `_load_cache` for one file: a missing file keeps the initial `{}`; an
`OSError`/`JSONDecodeError` falls back to `{}`. -/
def loadDictFile : FileContent → Dict JValue
  | .missing => []
  | .corrupt => []
  | .obj l => l

/-- In-memory state of a `TicketCache`. -/
structure TicketCacheState where
  tickets : Dict JValue
  metadata : Dict JValue

/-- Constructing `TicketCache(cache_dir)`: load both files. -/
def ticketCacheInit (fs : CacheFS) : TicketCacheState :=
  ⟨loadDictFile fs.tickets, loadDictFile fs.metadata⟩

/-- `_save_cache`: write both dicts out (writes are modelled as reliable; an
`OSError` would only be logged). -/
def saveCache (st : TicketCacheState) : CacheFS :=
  ⟨.obj st.tickets, .obj st.metadata⟩

/-- `get_ticket(key)`. -/
def getTicket (st : TicketCacheState) (k : String) : Option JValue :=
  dictGet? st.tickets k

/-- The state after `put_ticket(key, data)`: the ticket is stored first; then
`ticket_data.get("fields", {}).get("updated")` is consulted — raising
(`.exn`, before anything is saved) when `data` or a present `fields` member
is not a dict — and a truthy `updated` records metadata
`{cached_at: now, last_updated: updated}`. -/
def putTicketResult (st : TicketCacheState) (k : String) (data : JValue)
    (now : String) : PyResult TicketCacheState :=
  match data with
  | .obj l =>
    match dictGet? l "fields" with
    | none => .ok { st with tickets := dictInsert st.tickets k data }
    | some (.obj f) =>
      if (pyGet f "updated").truthy then
        .ok { tickets := dictInsert st.tickets k data,
              metadata := dictInsert st.metadata k
                (.obj [("cached_at", .str now), ("last_updated", pyGet f "updated")]) }
      else .ok { st with tickets := dictInsert st.tickets k data }
    | some _ => .exn
  | _ => .exn

/-- `put_ticket(key, data)`: update the in-memory state and save it. -/
def putTicket (st : TicketCacheState) (k : String) (data : JValue)
    (now : String) : PyResult (TicketCacheState × CacheFS) :=
  match putTicketResult st k data now with
  | .ok st' => .ok (st', saveCache st')
  | .exn => .exn
  | .fuelOut => .fuelOut

/-- `is_ticket_stale(key, current_updated)`.  Timestamps are abstract
instants (`Int`); `parseIso` models `datetime.fromisoformat`, with `none` for
a raised `ValueError` (caught, treated as stale).  A truthy non-string
`last_updated` has no `.replace` and raises `AttributeError`, which the
`except (ValueError, TypeError)` does NOT catch. -/
def isTicketStale (parseIso : String → Option Int) (st : TicketCacheState)
    (k : String) (current : Int) : PyResult Bool :=
  if !dictMem st.tickets k || !dictMem st.metadata k then .ok true
  else
    match dictGet? st.metadata k with
    | some (.obj m) =>
      match dictGet? m "last_updated" with
      | none => .ok true
      | some .null => .ok true
      | some (.str s) =>
        if s.isEmpty then .ok true
        else
          match parseIso (s.replace "Z" "+00:00") with
          | none => .ok true
          | some t => .ok (decide (current > t))
      | some (.bool false) => .ok true
      | some (.bool true) => .exn
      | some (.num q) => if q = 0 then .ok true else .exn
      | some (.arr l) => if l.isEmpty then .ok true else .exn
      | some (.obj l) => if l.isEmpty then .ok true else .exn
    | some _ => .exn
    | none => .ok true

/-- Claim C8 as stated: put followed by get on a fresh instance over the same
directory round-trips every payload. -/
def roundTripProp : Prop :=
  ∀ (fs : CacheFS) (key : String) (data : JValue) (now : String),
    ∃ st' fs', putTicket (ticketCacheInit fs) key data now = .ok (st', fs') ∧
      getTicket (ticketCacheInit fs') key = some data

/-- Payload shapes `put_ticket` completes on: a JSON object whose `fields`
member, if present, is itself an object. -/
def putSafeShape (data : JValue) : Bool :=
  match data with
  | .obj l =>
    match dictGet? l "fields" with
    | none => true
    | some (.obj _) => true
    | some _ => false
  | _ => false

/-- The payload records no staleness metadata: `fields` absent, or present as
an object whose `updated` is falsy/missing. -/
def lacksUpdated (data : JValue) : Bool :=
  match data with
  | .obj l =>
    match dictGet? l "fields" with
    | none => true
    | some (.obj f) => !(pyGet f "updated").truthy
    | some _ => false
  | _ => false

/-- Claim C10 as stated: storing a payload without `fields.updated` makes
`is_ticket_stale` report `True` for that key at every current timestamp. -/
def putWithoutUpdatedAlwaysStaleProp : Prop :=
  ∀ (st : TicketCacheState) (key : String) (data : JValue) (now : String)
    (parseIso : String → Option Int) (cur : Int) st' fs',
    lacksUpdated data = true →
    putTicket st key data now = .ok (st', fs') →
    getTicket st' key = some data ∧ isTicketStale parseIso st' key cur = .ok true

/-- C10 counterexample data: a first put with `updated`. -/
def c10Data1 : JValue := .obj [("fields", .obj [("updated", .str "2024-01-02")])]

/-- C10 counterexample data: a second put of the same key without fields. -/
def c10Data2 : JValue := .obj []

/-- Abstract clock for the counterexample: every string parses to instant 5. -/
def c10ParseIso : String → Option Int := fun _ => some 5

/-- State after the first put on a fresh cache. -/
def c10St1 : TicketCacheState :=
  ⟨[("K", c10Data1)],
   [("K", .obj [("cached_at", .str "t0"), ("last_updated", .str "2024-01-02")])]⟩

/-- State after the second put: the ticket is replaced, the old metadata
entry survives. -/
def c10St2 : TicketCacheState :=
  ⟨[("K", c10Data2)],
   [("K", .obj [("cached_at", .str "t0"), ("last_updated", .str "2024-01-02")])]⟩

/-! ## Theorems -/

/-! ### Basic dictionary lemmas -/

theorem dictGet?_cons {α : Type} (p : String × α) (d : Dict α) (j : String) :
    dictGet? (p :: d) j = if p.1 == j then some p.2 else dictGet? d j := by
  simp only [dictGet?, List.find?]
  cases h : p.1 == j <;> simp [h]

theorem dictGet?_map_replace_self {α : Type} (k : String) (v : α) :
    ∀ d : Dict α, d.any (fun p => p.1 == k) = true →
      dictGet? (d.map (fun p => if p.1 == k then (k, v) else p)) k = some v := by
  intro d
  induction d with
  | nil => intro h; simp at h
  | cons p rest ih =>
    intro h
    cases hp : p.1 == k
    · simp only [List.any_cons, hp, Bool.false_or] at h
      simp only [List.map_cons, hp, Bool.false_eq_true, if_false, dictGet?_cons]
      exact ih h
    · have hpk : p.1 = k := by simpa using hp
      simp [List.map_cons, hp, dictGet?_cons, hpk]

theorem dictGet?_map_replace_ne {α : Type} (k j : String) (v : α) (hne : j ≠ k) :
    ∀ d : Dict α,
      dictGet? (d.map (fun p => if p.1 == k then (k, v) else p)) j = dictGet? d j := by
  intro d
  induction d with
  | nil => rfl
  | cons p rest ih =>
    cases hp : p.1 == k
    · simp only [List.map_cons, hp, Bool.false_eq_true, if_false, dictGet?_cons, ih]
    · have hpk : p.1 = k := by simpa using hp
      have hpj : (p.1 == j) = false := by
        simp only [beq_eq_false_iff_ne, ne_eq, hpk]
        exact fun hh => hne hh.symm
      have hkj : (k == j) = false := by
        simp only [beq_eq_false_iff_ne, ne_eq]
        exact fun hh => hne hh.symm
      simp only [List.map_cons, hp, if_true, dictGet?_cons, hkj, hpj, ih,
        Bool.false_eq_true, if_false]

theorem dictGet?_append_single_self {α : Type} (k : String) (v : α) :
    ∀ d : Dict α, d.any (fun p => p.1 == k) = false →
      dictGet? (d ++ [(k, v)]) k = some v := by
  intro d
  induction d with
  | nil =>
    intro _
    rw [List.nil_append, dictGet?_cons]
    simp
  | cons p rest ih =>
    intro h
    simp only [List.any_cons, Bool.or_eq_false_iff] at h
    simp only [List.cons_append, dictGet?_cons, h.1, Bool.false_eq_true, if_false]
    exact ih h.2

theorem dictGet?_append_single_ne {α : Type} (k j : String) (v : α) (hne : j ≠ k) :
    ∀ d : Dict α, dictGet? (d ++ [(k, v)]) j = dictGet? d j := by
  intro d
  induction d with
  | nil =>
    have hkj : (k == j) = false := by
      simp only [beq_eq_false_iff_ne, ne_eq]
      exact fun hh => hne hh.symm
    rw [List.nil_append, dictGet?_cons, hkj]
    simp
  | cons p rest ih =>
    simp only [List.cons_append, dictGet?_cons, ih]

theorem dictGet?_dictInsert_self {α : Type} (d : Dict α) (k : String) (v : α) :
    dictGet? (dictInsert d k v) k = some v := by
  unfold dictInsert
  cases h : d.any (fun p => p.1 == k)
  · simp only [Bool.false_eq_true, if_false]
    exact dictGet?_append_single_self k v d h
  · simp only [if_pos rfl]
    exact dictGet?_map_replace_self k v d h

theorem dictGet?_dictInsert_ne {α : Type} (d : Dict α) (k j : String) (v : α)
    (hne : j ≠ k) : dictGet? (dictInsert d k v) j = dictGet? d j := by
  unfold dictInsert
  cases h : d.any (fun p => p.1 == k)
  · simp only [Bool.false_eq_true, if_false]
    exact dictGet?_append_single_ne k j v hne d
  · simp only [if_pos rfl]
    exact dictGet?_map_replace_ne k j v hne d

theorem dictGet?_isSome_of_mem {α : Type} (d : Dict α) (k : String)
    (h : dictMem d k = true) : (dictGet? d k).isSome := by
  induction d with
  | nil => simp [dictMem] at h
  | cons p rest ih =>
    simp only [dictMem, List.any_cons, Bool.or_eq_true] at h
    simp only [dictGet?, List.find?]
    cases hp : p.1 == k
    · rcases h with h | h
      · rw [hp] at h; exact absurd h (by simp)
      · exact ih h
    · simp

/-- C1.  The search `build_hierarchy` issues for root selection does NOT
constrain resolution: the JQL contains only the project and issue-type
clauses (for the concrete project "PROJ" with default root types the exact
query is shown, and it has no occurrence of "resolution"), while the string
"Unresolved" is misapplied as the `max_results` parameter.  This contradicts
`build_hierarchy`'s docstring ("Only includes top-level tickets that have a
resolution of \"Unresolved\"."), so the code, not the claim, is wrong. -/
theorem buildHierarchy_root_search_lacks_resolution_filter :
    (∀ projectKey rootTypes,
      (buildHierarchyRootRequest projectKey rootTypes).maxResults = .str "Unresolved") ∧
    (buildHierarchyRootRequest "PROJ" none).jql =
      "project = PROJ AND issuetype in (\"Feature\", \"Issue\", \"Bug\")" ∧
    strContainsSub (buildHierarchyRootRequest "PROJ" none).jql "resolution" = false := by
  refine ⟨fun _ _ => rfl, rfl, ?_⟩
  decide


/-! ### Sorting lemmas -/

theorem insortPair_perm (p : String × ERank) :
    ∀ l : List (String × ERank), (insortPair p l).Perm (p :: l) := by
  intro l
  induction l with
  | nil => exact List.Perm.refl _
  | cons q qs ih =>
    unfold insortPair
    by_cases h : p.2 ≤ q.2
    · rw [if_pos h]
    · rw [if_neg h]
      exact (ih.cons q).trans (List.Perm.swap p q qs)

theorem insortPairs_perm :
    ∀ l : List (String × ERank), (insortPairs l).Perm l := by
  intro l
  induction l with
  | nil => exact List.Perm.refl _
  | cons p ps ih =>
    unfold insortPairs
    exact (insortPair_perm p (insortPairs ps)).trans (ih.cons p)

theorem insortPair_pairwise (p : String × ERank) :
    ∀ l : List (String × ERank),
      l.Pairwise (fun a b => a.2 ≤ b.2) →
      (insortPair p l).Pairwise (fun a b => a.2 ≤ b.2) := by
  intro l
  induction l with
  | nil => intro _; simp [insortPair]
  | cons q qs ih =>
    intro hl
    rw [List.pairwise_cons] at hl
    unfold insortPair
    by_cases h : p.2 ≤ q.2
    · rw [if_pos h]
      refine List.pairwise_cons.2 ⟨?_, List.pairwise_cons.2 ⟨hl.1, hl.2⟩⟩
      intro x hx
      rcases List.mem_cons.1 hx with rfl | hx
      · exact h
      · exact le_trans h (hl.1 x hx)
    · rw [if_neg h]
      refine List.pairwise_cons.2 ⟨?_, ih hl.2⟩
      intro x hx
      have hx' := (insortPair_perm p qs).mem_iff.1 hx
      rcases List.mem_cons.1 hx' with rfl | hx'
      · exact le_of_not_le h
      · exact hl.1 x hx'

theorem insortPairs_pairwise :
    ∀ l : List (String × ERank),
      (insortPairs l).Pairwise (fun a b => a.2 ≤ b.2) := by
  intro l
  induction l with
  | nil => simp [insortPairs]
  | cons p ps ih => exact insortPair_pairwise p (insortPairs ps) ih

theorem collectRanks_ok (hashFn : JValue → ℕ) (flat : Dict JValue) :
    ∀ (ks : List String) (ranks : List (String × ERank)),
      collectRanks hashFn flat ks = .ok ranks →
      ranks.map (fun p => p.1) = ks ∧
        ∀ pr ∈ ranks, getRank hashFn flat pr.1 = .ok pr.2 := by
  intro ks
  induction ks with
  | nil =>
    intro ranks h
    cases h
    exact ⟨rfl, by intro pr hpr; simp at hpr⟩
  | cons k ks ih =>
    intro ranks h
    unfold collectRanks at h
    cases hr : getRank hashFn flat k with
    | ok r =>
      rw [hr] at h
      cases hrest : collectRanks hashFn flat ks with
      | ok rest =>
        rw [hrest] at h
        cases h
        obtain ⟨hmap, hmem⟩ := ih rest hrest
        refine ⟨by simp [hmap], ?_⟩
        intro pr hpr
        rcases List.mem_cons.1 hpr with rfl | hpr
        · exact hr
        · exact hmem pr hpr
      | exn => rw [hrest] at h; cases h
      | fuelOut => rw [hrest] at h; cases h
    | exn => rw [hr] at h; cases h
    | fuelOut => rw [hr] at h; cases h

/-! ### C2: rank-less tickets and sort order -/

/-- C2 counterexample: the claim that every rank-less ticket sorts after every
ticket with a parseable rank is false.  With rank 2000000 on "T1" and only a
creation date on "T2", the fallback key of "T2" is below 1000000, so the
rank-less "T2" sorts first. -/
theorem ranklessAlwaysLast_false : ¬ ranklessAlwaysLastProp := by
  intro h
  have h01 := h (fun _ => 0) c2FlatCounter ["T2", "T1"] rfl ⟨0, by decide⟩ ⟨1, by decide⟩
    ⟨[("created", .str "2024-01-01")], rfl, rfl⟩
    ⟨[("rank", .num 2000000)], 2000000, rfl, rfl⟩
  exact absurd h01 (by decide)

/-- C2 amended: `get_sorted_tickets_by_rank` returns a permutation of the
keys, sorted (stably) by the derived rank; a ticket with neither a usable
rank field nor a truthy creation value gets rank `+∞` and hence sorts last;
a rank-less ticket with a string creation date gets the fallback key
`hash(created) % 1000000`, which is below 1000000 — so it sorts after a
parseably-ranked ticket only when that rank exceeds its fallback value, not
unconditionally. -/
theorem rank_sort_amended (hashFn : JValue → ℕ) (flat : Dict JValue)
    (l : List String) (h : sortedTicketsByRank hashFn flat = .ok l) :
    l.Perm (dictKeys flat) ∧
    l.Pairwise (fun a b => rankOf hashFn flat a ≤ rankOf hashFn flat b) ∧
    (∀ k f, fieldsOf ((dictGet? flat k).getD (.obj [])) = .ok f →
        rankFromFields f = .ok none →
        (pyGetD f "created" (.str "")).truthy = false →
        getRank hashFn flat k = .ok (⊤ : ERank)) ∧
    (∀ k f s, fieldsOf ((dictGet? flat k).getD (.obj [])) = .ok f →
        rankFromFields f = .ok none →
        pyGetD f "created" (.str "") = .str s → s ≠ "" →
        getRank hashFn flat k = .ok (((hashFn (.str s) % 1000000 : ℕ) : ℚ) : ERank) ∧
          (((hashFn (.str s) % 1000000 : ℕ) : ℚ) : ERank) < ((1000000 : ℚ) : ERank)) := by
  unfold sortedTicketsByRank at h
  cases hcr : collectRanks hashFn flat (dictKeys flat) with
  | exn => rw [hcr] at h; cases h
  | fuelOut => rw [hcr] at h; cases h
  | ok ranks =>
    rw [hcr] at h
    cases h
    obtain ⟨hmap, hmem⟩ := collectRanks_ok hashFn flat (dictKeys flat) ranks hcr
    refine ⟨?_, ?_, ?_, ?_⟩
    · have hp := (insortPairs_perm ranks).map (fun p => p.1)
      rw [hmap] at hp
      exact hp
    · rw [List.pairwise_map]
      refine List.Pairwise.imp_of_mem ?_ (insortPairs_pairwise ranks)
      intro a b ha hb hab
      have ha' := (insortPairs_perm ranks).mem_iff.1 ha
      have hb' := (insortPairs_perm ranks).mem_iff.1 hb
      have hra : rankOf hashFn flat a.1 = a.2 := by
        unfold rankOf; rw [hmem a ha']
      have hrb : rankOf hashFn flat b.1 = b.2 := by
        unfold rankOf; rw [hmem b hb']
      rw [hra, hrb]
      exact hab
    · intro k f hf hr htruthy
      simp only [getRank, hf, hr, htruthy, Bool.false_eq_true, if_false]
    · intro k f s hf hr hcreated hs
      constructor
      · have hE : s.isEmpty = false := by
          cases he : s.isEmpty
          · rfl
          · exact absurd ((String.isEmpty_iff s).1 he) hs
        have hT : (JValue.str s).truthy = true := by
          show (!s.isEmpty) = true
          rw [hE]
          rfl
        simp only [getRank, hf, hr, hcreated, hT, if_true]
      · have hlt : hashFn (.str s) % 1000000 < 1000000 := Nat.mod_lt _ (by norm_num)
        have hq : ((hashFn (.str s) % 1000000 : ℕ) : ℚ) < (1000000 : ℚ) := by
          exact_mod_cast hlt
        exact_mod_cast hq

/-- Witness for the amended C2 at a concrete input. -/
theorem rank_sort_amended_witness :
    sortedTicketsByRank (fun _ => 7) c2FlatWitness = .ok ["T1", "T2", "T3"] ∧
    List.Perm ["T1", "T2", "T3"] (dictKeys c2FlatWitness) ∧
    List.Pairwise
      (fun a b => rankOf (fun _ => 7) c2FlatWitness a ≤ rankOf (fun _ => 7) c2FlatWitness b)
      ["T1", "T2", "T3"] :=
  ⟨rfl,
   (rank_sort_amended (fun _ => 7) c2FlatWitness ["T1", "T2", "T3"] rfl).1,
   (rank_sort_amended (fun _ => 7) c2FlatWitness ["T1", "T2", "T3"] rfl).2.1⟩

/-! ### C3: duplicates in child-key lists -/

theorem searchChildKeys_nodup :
    ∀ (issues : List JValue) (acc : List String), acc.Nodup →
      (searchChildKeys issues acc).Nodup := by
  intro issues
  induction issues with
  | nil => intro acc h; exact h
  | cons issue rest ih =>
    intro acc h
    unfold searchChildKeys
    split
    · split
      · split
        · rename_i l s hkey hc
          refine ih (acc ++ [s]) ?_
          rw [Bool.and_eq_true] at hc
          have hand := hc
          have hsnot : s ∉ acc := by
            have h2 := hand.2
            cases hcc : acc.contains s
            · simpa using hcc
            · rw [hcc] at h2; simp at h2
          refine h.append (List.nodup_singleton s) ?_
          intro x hx hx1
          rcases List.mem_singleton.1 hx1 with rfl
          exact hsnot hx
        · exact ih acc h
      · exact ih acc h
    · exact h

theorem typeSearchChildren_nodup (oracles : JiraOracles) (typeName key : String) :
    (typeSearchChildren oracles typeName key).Nodup := by
  unfold typeSearchChildren
  by_cases h1 : strContainsSub typeName "epic" = true
  · rw [if_pos h1]
    exact searchChildKeys_nodup _ [] List.nodup_nil
  · rw [if_neg h1]
    by_cases h2 : (strContainsSub typeName "feature" || strContainsSub typeName "initiative"
        || strContainsSub typeName "theme") = true
    · rw [if_pos h2]
      exact searchChildKeys_nodup _ [] List.nodup_nil
    · rw [if_neg h2]
      exact List.nodup_nil

/-- C3 counterexample: a ticket whose subtask "P-2" is also returned by the
Epic Link search yields the child list `["P-2", "P-2"]`, so child-key lists
(and hence hierarchy-map values) are not duplicate-free. -/
theorem childKeysNodup_false : ¬ childKeysNodupProp := by
  intro h
  have hd := h c3Oracles c3Ticket ["P-2", "P-2"] rfl
  exact absurd hd (by decide)

/-- C3 amended: for a ticket with a truthy string key, the child-key list is
exactly the ticket's own subtask keys followed by the search results
triggered by the ticket's own (lowered) issue-type name; that search-result
suffix is internally duplicate-free (each search deduplicates against
itself), but nothing deduplicates it against the subtask prefix, so a key
occurring both as a subtask and as a search result appears twice.  A ticket
with a falsy key returns an empty child list. -/
theorem childKeys_split_search_nodup (oracles : JiraOracles) (t : JValue)
    (keys : List String) (h : getChildTicketKeys oracles t = .ok keys) :
    (∃ tl key fl sub typeName,
      t = .obj tl ∧
      pyGet tl "key" = .str key ∧
      key.isEmpty = false ∧
      pyGetD tl "fields" (.obj []) = .obj fl ∧
      subtaskKeysOf (pyGetD fl "subtasks" (.arr [])) = .ok sub ∧
      issueTypeNameOf fl = .ok typeName ∧
      keys = sub ++ typeSearchChildren oracles typeName key ∧
      (typeSearchChildren oracles typeName key).Nodup) ∨
    keys = [] := by
  cases t with
  | obj tl =>
    simp only [getChildTicketKeys] at h
    cases hk : pyGet tl "key" with
    | str key =>
      simp only [hk] at h
      by_cases hke : key.isEmpty = true
      · rw [if_pos hke] at h
        cases h
        exact Or.inr rfl
      · have hke' : key.isEmpty = false := by simpa using hke
        rw [if_neg hke] at h
        cases hf : pyGetD tl "fields" (.obj []) with
        | obj fl =>
          simp only [hf] at h
          cases hsub : subtaskKeysOf (pyGetD fl "subtasks" (.arr [])) with
          | ok sub =>
            simp only [hsub] at h
            cases hty : issueTypeNameOf fl with
            | ok typeName =>
              simp only [hty] at h
              cases h
              exact Or.inl ⟨tl, key, fl, sub, typeName, rfl, hk, hke', hf, hsub, hty,
                rfl, typeSearchChildren_nodup _ _ _⟩
            | exn => simp only [hty] at h; cases h
            | fuelOut => simp only [hty] at h; cases h
          | exn => simp only [hsub] at h; cases h
          | fuelOut => simp only [hsub] at h; cases h
        | null => simp only [hf] at h; cases h
        | bool b => simp only [hf] at h; cases h
        | num q => simp only [hf] at h; cases h
        | str s => simp only [hf] at h; cases h
        | arr a => simp only [hf] at h; cases h
    | null =>
      simp only [hk] at h
      cases h
      exact Or.inr rfl
    | bool b =>
      cases b with
      | false =>
        simp only [hk] at h
        cases h
        exact Or.inr rfl
      | true => simp only [hk] at h; cases h
    | num q =>
      simp only [hk] at h
      by_cases hq : q = 0
      · rw [if_pos hq] at h
        cases h
        exact Or.inr rfl
      · rw [if_neg hq] at h
        cases h
    | arr l =>
      simp only [hk] at h
      by_cases hl : l.isEmpty = true
      · rw [if_pos hl] at h
        cases h
        exact Or.inr rfl
      · rw [if_neg hl] at h
        cases h
    | obj l =>
      simp only [hk] at h
      by_cases hl : l.isEmpty = true
      · rw [if_pos hl] at h
        cases h
        exact Or.inr rfl
      · rw [if_neg hl] at h
        cases h
  | null => simp only [getChildTicketKeys] at h; cases h
  | bool b => simp only [getChildTicketKeys] at h; cases h
  | num q => simp only [getChildTicketKeys] at h; cases h
  | str s => simp only [getChildTicketKeys] at h; cases h
  | arr l => simp only [getChildTicketKeys] at h; cases h

/-- Witness for the amended C3 at the concrete duplicate-producing input:
the Epic ticket "P-1" with subtask "P-2" whose Epic Link search also returns
"P-2" decomposes into subtask prefix ["P-2"] and duplicate-free search
suffix ["P-2"]. -/
theorem childKeys_split_search_nodup_witness :
    getChildTicketKeys c3Oracles c3Ticket = .ok ["P-2", "P-2"] ∧
    ((∃ tl key fl sub typeName,
        c3Ticket = .obj tl ∧
        pyGet tl "key" = .str key ∧
        key.isEmpty = false ∧
        pyGetD tl "fields" (.obj []) = .obj fl ∧
        subtaskKeysOf (pyGetD fl "subtasks" (.arr [])) = .ok sub ∧
        issueTypeNameOf fl = .ok typeName ∧
        ["P-2", "P-2"] = sub ++ typeSearchChildren c3Oracles typeName key ∧
        (typeSearchChildren c3Oracles typeName key).Nodup) ∨
      ["P-2", "P-2"] = ([] : List String)) :=
  ⟨rfl, childKeys_split_search_nodup c3Oracles c3Ticket ["P-2", "P-2"] rfl⟩

/-! ### C6: fetch-failure isolation -/

/-- C6.  A failed fetch of a recursively-discovered ticket makes
`_process_ticket_recursive` return normally with the state unchanged (the
ticket is absent from the flat map, no hierarchy entry is added, no exception
escapes), so the caller's loop continues with the remaining children; whereas
a failed fetch of the explicit starting ticket of
`build_hierarchy_from_ticket` is re-raised to the caller. -/
theorem fetch_failure_isolation :
    (∀ (oracles : JiraOracles) (fuel : Nat) (st : HierarchyState) (k : String),
        dictMem st.allTickets k = false → oracles.fetch k = none →
        processTicketRecursive oracles (fuel + 1) st k none = .ok st) ∧
    (∀ (oracles : JiraOracles) (fuel : Nat) (st : HierarchyState) (k : String),
        oracles.fetch k = none →
        buildHierarchyFromTicket oracles fuel st k = .exn) := by
  constructor
  · intro oracles fuel st k hmem hfetch
    unfold processTicketRecursive
    rw [hmem]
    simp only [Bool.false_eq_true, if_false, hfetch]
  · intro oracles fuel st k hfetch
    unfold buildHierarchyFromTicket
    rw [hfetch]

/-- Witness for C6 at a concrete input: with an always-failing fetch oracle,
processing an undiscovered key returns the unchanged empty state, while the
explicit-root entry point raises. -/
theorem fetch_failure_isolation_witness :
    dictMem emptyHierarchyState.allTickets "K" = false ∧
    c6Oracles.fetch "K" = none ∧
    processTicketRecursive c6Oracles 1 emptyHierarchyState "K" none =
      .ok emptyHierarchyState ∧
    buildHierarchyFromTicket c6Oracles 0 emptyHierarchyState "K" = .exn :=
  ⟨rfl, rfl,
   fetch_failure_isolation.1 c6Oracles 0 emptyHierarchyState "K" rfl rfl,
   fetch_failure_isolation.2 c6Oracles 0 emptyHierarchyState "K" rfl⟩

/-! ### C7: display flattening emits each key at most once -/

theorem pyFoldM_preserve {σ α : Type} (P : σ → Prop) (f : σ → α → PyResult σ)
    (hf : ∀ st a st', P st → f st a = .ok st' → P st') :
    ∀ (l : List α) (st st' : σ), P st → pyFoldM f st l = .ok st' → P st' := by
  intro l
  induction l with
  | nil =>
    intro st st' h heq
    cases heq
    exact h
  | cons a rest ih =>
    intro st st' h heq
    unfold pyFoldM at heq
    cases hf1 : f st a with
    | ok st1 =>
      rw [hf1] at heq
      exact ih st1 st' (hf st a st1 h hf1) heq
    | exn => rw [hf1] at heq; cases heq
    | fuelOut => rw [hf1] at heq; cases heq

theorem addTicketToDisplay_inv (hashFn : JValue → ℕ) (flat : Dict JValue)
    (hier : Dict (List String)) :
    ∀ (fuel : Nat) (k : String) (level : Nat) dp dp',
      DisplayInv dp →
      addTicketToDisplay hashFn flat hier fuel k level dp = .ok dp' →
      DisplayInv dp' := by
  intro fuel
  induction fuel with
  | zero =>
    intro k level dp dp' hP h
    unfold addTicketToDisplay at h
    cases h
  | succ fuel ih =>
    intro k level dp dp' hP h
    unfold addTicketToDisplay at h
    by_cases hk : k ∈ dp.2
    · rw [if_pos hk] at h
      cases h
      exact hP
    · rw [if_neg hk] at h
      cases hfld : fieldsOf ((dictGet? flat k).getD (.obj [])) with
      | exn => rw [hfld] at h; cases h
      | fuelOut => rw [hfld] at h; cases h
      | ok fields =>
        rw [hfld] at h
        cases hsort : sortedTicketsByRank hashFn flat with
        | exn => rw [hsort] at h; cases h
        | fuelOut => rw [hsort] at h; cases h
        | ok sortedAll =>
          rw [hsort] at h
          have hkey : k ∉ dp.1.map DisplayItem.key := by
            intro hmem
            rcases List.mem_map.1 hmem with ⟨it, hit, hkeq⟩
            exact hk (hkeq ▸ hP.2 it hit)
          have hstart : DisplayInv
              (dp.1 ++ [⟨k, pyGetD fields "summary" (.str ""), level,
                (dictGet? flat k).getD (.obj [])⟩], insert k dp.2) := by
            constructor
            · rw [List.map_append]
              refine hP.1.append (List.nodup_singleton _) ?_
              intro x hx hx1
              rcases List.mem_singleton.1 hx1 with rfl
              exact hkey hx
            · intro it hit
              rcases List.mem_append.1 hit with hit | hit
              · exact Finset.mem_insert_of_mem (hP.2 it hit)
              · rcases List.mem_singleton.1 hit with rfl
                exact Finset.mem_insert_self _ _
          exact pyFoldM_preserve DisplayInv _
            (fun st a st' hPst heq => ih a (level + 1) st st' hPst heq)
            _ _ dp' hstart h

/-- C7.  In the flattened display list every ticket key appears at most once
(the processed-set guard skips keys already emitted, including keys reachable
through two different parents); and on the concrete diamond — "C" a child of
both "A" (rank 1) and "B" (rank 2) — "C" is emitted exactly once, under the
first-sorted parent "A", roots at level 0 and each child at its parent's
level plus one. -/
theorem display_list_keys_unique :
    (∀ (hashFn : JValue → ℕ) (flat : Dict JValue) (hier : Dict (List String))
        (fuel : Nat) (disp : List DisplayItem),
        getHierarchyForDisplay hashFn flat hier fuel = .ok disp →
        (disp.map DisplayItem.key).Nodup) ∧
    displayKeyLevels (getHierarchyForDisplay (fun _ => 0) c7Flat c7Hier 10) =
      .ok [("R", 0), ("A", 1), ("C", 2), ("B", 1)] := by
  constructor
  · intro hashFn flat hier fuel disp h
    unfold getHierarchyForDisplay at h
    cases hsort : sortedTicketsByRank hashFn flat with
    | exn => simp only [hsort] at h; cases h
    | fuelOut => simp only [hsort] at h; cases h
    | ok sortedAll =>
      simp only [hsort] at h
      cases hfold : pyFoldM
          (fun dp r =>
            if r ∈ dp.2 then .ok dp else addTicketToDisplay hashFn flat hier fuel r 0 dp)
          (([], ∅) : List DisplayItem × Finset String)
          (sortedAll.filter (fun key => decide (key ∈ findTrueRoots flat hier))) with
      | exn => simp only [hfold] at h; cases h
      | fuelOut => simp only [hfold] at h; cases h
      | ok dp =>
        simp only [hfold] at h
        cases h
        have hinv : DisplayInv dp := by
          refine pyFoldM_preserve DisplayInv _ ?_ _ _ dp ⟨by simp, by simp⟩ hfold
          intro st a st' hPst heq
          by_cases ha : a ∈ st.2
          · rw [if_pos ha] at heq
            cases heq
            exact hPst
          · rw [if_neg ha] at heq
            exact addTicketToDisplay_inv hashFn flat hier fuel a 0 st st' hPst heq
        exact hinv.1
  · decide

/-- Witness for C7's universally quantified part at the diamond input. -/
theorem display_list_keys_unique_witness :
    (∃ disp, getHierarchyForDisplay (fun _ => 0) c7Flat c7Hier 10 = .ok disp ∧
      (disp.map DisplayItem.key).Nodup) := by
  cases hdisp : getHierarchyForDisplay (fun _ => 0) c7Flat c7Hier 10 with
  | ok disp =>
    exact ⟨disp, rfl, display_list_keys_unique.1 (fun _ => 0) c7Flat c7Hier 10 disp hdisp⟩
  | exn =>
    exact absurd (congrArg displayKeyLevels hdisp)
      (by rw [display_list_keys_unique.2]; intro hcontra; cases hcontra)
  | fuelOut =>
    exact absurd (congrArg displayKeyLevels hdisp)
      (by rw [display_list_keys_unique.2]; intro hcontra; cases hcontra)

/-! ### C4/C5: memoized aggregation lemmas -/

theorem dictMem_eq_isSome {α : Type} (d : Dict α) (k : String) :
    dictMem d k = (dictGet? d k).isSome := by
  induction d with
  | nil => rfl
  | cons p rest ih =>
    simp only [dictMem, List.any_cons, dictGet?_cons]
    cases hp : p.1 == k
    · simpa [dictMem] using ih
    · simp

theorem dictMem_iff_mem_keys {α : Type} (d : Dict α) (k : String) :
    dictMem d k = true ↔ k ∈ dictKeys d := by
  unfold dictMem dictKeys
  rw [List.any_eq_true]
  constructor
  · rintro ⟨p, hp, hpk⟩
    exact List.mem_map.2 ⟨p, hp, by simpa using hpk⟩
  · rintro hm
    rcases List.mem_map.1 hm with ⟨p, hp, hpk⟩
    exact ⟨p, hp, by simpa using hpk⟩

theorem dictGet?_isSome_of_mem_keys {α : Type} (d : Dict α) (k : String)
    (h : k ∈ dictKeys d) : (dictGet? d k).isSome := by
  rw [← dictMem_eq_isSome]
  exact (dictMem_iff_mem_keys d k).2 h

theorem dictKeys_dictInsert_of_none {α : Type} (d : Dict α) (k : String) (v : α)
    (h : dictGet? d k = none) : dictKeys (dictInsert d k v) = dictKeys d ++ [k] := by
  have hmem : dictMem d k = false := by
    rw [dictMem_eq_isSome, h]
    rfl
  unfold dictInsert
  rw [show (d.any fun p => p.1 == k) = false from hmem]
  simp [dictKeys]

theorem aggPureList_ptwise_ok {f g : String → PyResult (Finset String)}
    (hfg : ∀ c s, f c = .ok s → g c = .ok s) :
    ∀ (cs : List String) (t : Finset String),
      aggPureList f cs = .ok t → aggPureList g cs = .ok t := by
  intro cs
  induction cs with
  | nil => intro t h; exact h
  | cons c cs ih =>
    intro t h
    unfold aggPureList at h ⊢
    cases hf1 : f c with
    | ok s =>
      rw [hf1] at h
      rw [hfg c s hf1]
      cases hrest : aggPureList f cs with
      | ok t' => rw [hrest] at h; rw [ih t' hrest]; exact h
      | exn => rw [hrest] at h; cases h
      | fuelOut => rw [hrest] at h; cases h
    | exn => rw [hf1] at h; cases h
    | fuelOut => rw [hf1] at h; cases h

theorem aggPure_succ (flat : Dict JValue) (hier : Dict (List String)) :
    ∀ (n : Nat) (k : String) (s : Finset String),
      aggPure flat hier n k = .ok s → aggPure flat hier (n + 1) k = .ok s := by
  intro n
  induction n with
  | zero => intro k s h; unfold aggPure at h; cases h
  | succ n ih =>
    intro k s h
    unfold aggPure at h ⊢
    cases how : ownContributors flat k with
    | ok own =>
      simp only [how] at h ⊢
      cases hlist : aggPureList (aggPure flat hier n) (childrenOf hier k) with
      | ok rest =>
        simp only [hlist] at h
        simp only [aggPureList_ptwise_ok ih (childrenOf hier k) rest hlist]
        exact h
      | exn => simp only [hlist] at h; cases h
      | fuelOut => simp only [hlist] at h; cases h
    | exn => simp only [how] at h; cases h
    | fuelOut => simp only [how] at h; cases h

theorem aggPure_mono (flat : Dict JValue) (hier : Dict (List String))
    {n m : Nat} (hnm : n ≤ m) (k : String) (s : Finset String)
    (h : aggPure flat hier n k = .ok s) : aggPure flat hier m k = .ok s := by
  induction hnm with
  | refl => exact h
  | step _ ih => exact aggPure_succ flat hier _ k s ih

theorem aggVal_unique (flat : Dict JValue) (hier : Dict (List String))
    (k : String) (s t : Finset String)
    (hs : AggVal flat hier k s) (ht : AggVal flat hier k t) : s = t := by
  obtain ⟨n, hn⟩ := hs
  obtain ⟨m, hm⟩ := ht
  have hn' := aggPure_mono flat hier (Nat.le_max_left n m) k s hn
  have hm' := aggPure_mono flat hier (Nat.le_max_right n m) k t hm
  rw [hn'] at hm'
  cases hm'
  rfl

theorem aggPureList_ok_of_vals (f : String → PyResult (Finset String)) :
    ∀ (cs : List String) (vals : List (Finset String)),
      vals.length = cs.length →
      (∀ p ∈ List.zip cs vals, f p.1 = .ok p.2) →
      aggPureList f cs = .ok (unionList vals) := by
  intro cs
  induction cs with
  | nil =>
    intro vals hlen _
    cases vals with
    | nil => rfl
    | cons v vs => cases hlen
  | cons c cs ih =>
    intro vals hlen hptw
    cases vals with
    | nil => cases hlen
    | cons v vs =>
      have hhead : f c = .ok v := hptw (c, v) (by simp [List.zip_cons_cons])
      have htail : aggPureList f cs = .ok (unionList vs) :=
        ih vs (by simpa using hlen) (fun p hp => hptw p (by simp [List.zip_cons_cons, hp]))
      unfold aggPureList
      simp only [hhead, htail]
      rfl

theorem aggPureList_values (f : String → PyResult (Finset String)) :
    ∀ (cs : List String) (t : Finset String),
      aggPureList f cs = .ok t →
      ∃ vals : List (Finset String), vals.length = cs.length ∧ t = unionList vals ∧
        ∀ p ∈ List.zip cs vals, f p.1 = .ok p.2 := by
  intro cs
  induction cs with
  | nil =>
    intro t h
    cases h
    exact ⟨[], rfl, rfl, by simp⟩
  | cons c cs ih =>
    intro t h
    unfold aggPureList at h
    cases hf1 : f c with
    | ok s =>
      rw [hf1] at h
      cases hrest : aggPureList f cs with
      | ok t' =>
        rw [hrest] at h
        cases h
        obtain ⟨vals, hlen, hval, hptw⟩ := ih t' hrest
        refine ⟨s :: vals, by simp [hlen], by simp [unionList, hval], ?_⟩
        intro p hp
        rw [List.zip_cons_cons] at hp
        rcases List.mem_cons.1 hp with rfl | hp
        · exact hf1
        · exact hptw p hp
      | exn => rw [hrest] at h; cases h
      | fuelOut => rw [hrest] at h; cases h
    | exn => rw [hf1] at h; cases h
    | fuelOut => rw [hf1] at h; cases h

theorem aggVals_common_fuel (flat : Dict JValue) (hier : Dict (List String)) :
    ∀ ps : List (String × Finset String),
      (∀ p ∈ ps, AggVal flat hier p.1 p.2) →
      ∃ N, ∀ p ∈ ps, aggPure flat hier N p.1 = .ok p.2 := by
  intro ps
  induction ps with
  | nil => intro _; exact ⟨0, by simp⟩
  | cons p ps ih =>
    intro h
    obtain ⟨n, hn⟩ := h p (List.mem_cons_self p ps)
    obtain ⟨N, hN⟩ := ih (fun q hq => h q (List.mem_cons_of_mem p hq))
    refine ⟨max n N, ?_⟩
    intro q hq
    rcases List.mem_cons.1 hq with rfl | hq
    · exact aggPure_mono flat hier (Nat.le_max_left n N) q.1 q.2 hn
    · exact aggPure_mono flat hier (Nat.le_max_right n N) q.1 q.2 (hN q hq)

theorem getAllContrib_caches (flat : Dict JValue) (hier : Dict (List String))
    (fuel : Nat) (ex : CExtractor) (k : String) (s : Finset String) (ex' : CExtractor)
    (h : getAllContrib flat hier fuel ex k = .ok (s, ex')) :
    dictGet? ex'.cache k = some s := by
  cases fuel with
  | zero => unfold getAllContrib at h; cases h
  | succ fuel =>
    unfold getAllContrib at h
    cases hc : dictGet? ex.cache k with
    | some s0 =>
      simp only [hc] at h
      cases h
      exact hc
    | none =>
      simp only [hc] at h
      cases how : ownContributors flat k with
      | ok own =>
        simp only [how] at h
        cases hfold : pyFoldM
            (fun acc c =>
              match getAllContrib flat hier fuel acc.2 c with
              | .ok sc => .ok (acc.1 ∪ sc.1, sc.2)
              | .exn => .exn
              | .fuelOut => .fuelOut)
            ((own, ex) : Finset String × CExtractor) (childrenOf hier k) with
        | ok acc =>
          simp only [hfold] at h
          cases h
          exact dictGet?_dictInsert_self _ _ _
        | exn => simp only [hfold] at h; cases h
        | fuelOut => simp only [hfold] at h; cases h
      | exn => simp only [how] at h; cases h
      | fuelOut => simp only [how] at h; cases h

theorem getAllContrib_fold_spec (flat : Dict JValue) (hier : Dict (List String))
    (fuel : Nat)
    (hIH : ∀ ex k s ex', CacheOK flat hier ex →
      getAllContrib flat hier fuel ex k = .ok (s, ex') →
      CacheOK flat hier ex' ∧ cacheExtends ex ex' ∧
        dictGet? ex'.cache k = some s ∧ AggVal flat hier k s) :
    ∀ (cs : List String) (a0 : Finset String) (ex0 : CExtractor)
        (acc1 : Finset String × CExtractor),
      CacheOK flat hier ex0 →
      pyFoldM
        (fun acc c =>
          match getAllContrib flat hier fuel acc.2 c with
          | .ok sc => .ok (acc.1 ∪ sc.1, sc.2)
          | .exn => .exn
          | .fuelOut => .fuelOut)
        (a0, ex0) cs = .ok acc1 →
      CacheOK flat hier acc1.2 ∧ cacheExtends ex0 acc1.2 ∧
        ∃ vals : List (Finset String), vals.length = cs.length ∧
          acc1.1 = a0 ∪ unionList vals ∧
          ∀ p ∈ List.zip cs vals, AggVal flat hier p.1 p.2 := by
  intro cs
  induction cs with
  | nil =>
    intro a0 ex0 acc1 hok h
    cases h
    refine ⟨hok, fun j v hv => hv, [], rfl, ?_, by simp⟩
    simp [unionList]
  | cons c cs ih =>
    intro a0 ex0 acc1 hok h
    unfold pyFoldM at h
    cases hg : getAllContrib flat hier fuel ex0 c with
    | ok sc =>
      simp only [hg] at h
      obtain ⟨s1, ex1⟩ := sc
      obtain ⟨hok1, hext1, _, hagg1⟩ := hIH ex0 c s1 ex1 hok hg
      obtain ⟨hokF, hextF, vals, hlen, hacc, hptw⟩ := ih (a0 ∪ s1) ex1 acc1 hok1 h
      refine ⟨hokF, fun j v hv => hextF j v (hext1 j v hv), s1 :: vals, by simp [hlen], ?_, ?_⟩
      · rw [hacc]
        simp [unionList, Finset.union_assoc]
      · intro p hp
        rw [List.zip_cons_cons] at hp
        rcases List.mem_cons.1 hp with rfl | hp
        · exact hagg1
        · exact hptw p hp
    | exn => simp only [hg] at h; cases h
    | fuelOut => simp only [hg] at h; cases h

theorem getAllContrib_spec (flat : Dict JValue) (hier : Dict (List String)) :
    ∀ (fuel : Nat) (ex : CExtractor) (k : String) (s : Finset String) (ex' : CExtractor),
      CacheOK flat hier ex →
      getAllContrib flat hier fuel ex k = .ok (s, ex') →
      CacheOK flat hier ex' ∧ cacheExtends ex ex' ∧
        dictGet? ex'.cache k = some s ∧ AggVal flat hier k s := by
  intro fuel
  induction fuel with
  | zero =>
    intro ex k s ex' hok h
    unfold getAllContrib at h
    cases h
  | succ fuel ih =>
    intro ex k s ex' hok h
    unfold getAllContrib at h
    cases hc : dictGet? ex.cache k with
    | some s0 =>
      simp only [hc] at h
      cases h
      exact ⟨hok, fun j v hv => hv, hc, hok k _ hc⟩
    | none =>
      simp only [hc] at h
      cases how : ownContributors flat k with
      | ok own =>
        simp only [how] at h
        cases hfold : pyFoldM
            (fun acc c =>
              match getAllContrib flat hier fuel acc.2 c with
              | .ok sc => .ok (acc.1 ∪ sc.1, sc.2)
              | .exn => .exn
              | .fuelOut => .fuelOut)
            ((own, ex) : Finset String × CExtractor) (childrenOf hier k) with
        | ok acc =>
          simp only [hfold] at h
          cases h
          obtain ⟨hokF, hextF, vals, hlen, hacc, hptw⟩ :=
            getAllContrib_fold_spec flat hier fuel ih (childrenOf hier k) own ex acc hok hfold
          obtain ⟨N, hN⟩ := aggVals_common_fuel flat hier
            (List.zip (childrenOf hier k) vals) hptw
          have hlist : aggPureList (aggPure flat hier N) (childrenOf hier k) =
              .ok (unionList vals) :=
            aggPureList_ok_of_vals _ (childrenOf hier k) vals hlen hN
          have hagg : AggVal flat hier k acc.1 := by
            refine ⟨N + 1, ?_⟩
            unfold aggPure
            simp only [how, hlist]
            rw [hacc]
          refine ⟨?_, ?_, dictGet?_dictInsert_self _ _ _, hagg⟩
          · intro j v hj
            by_cases hjk : j = k
            · subst hjk
              rw [dictGet?_dictInsert_self] at hj
              cases hj
              exact hagg
            · rw [dictGet?_dictInsert_ne _ _ _ _ hjk] at hj
              exact hokF j v hj
          · intro j v hj
            have hne : j ≠ k := by
              intro hk
              subst hk
              rw [hc] at hj
              cases hj
            rw [dictGet?_dictInsert_ne _ _ _ _ hne]
            exact hextF j v hj
        | exn => simp only [hfold] at h; cases h
        | fuelOut => simp only [hfold] at h; cases h
      | exn => simp only [how] at h; cases h
      | fuelOut => simp only [how] at h; cases h

theorem summary_fold_spec (flat : Dict JValue) (hier : Dict (List String)) (fuel : Nat) :
    ∀ (ks : List String) (acc0 : Dict (Finset String)) (ex0 : CExtractor)
        (summ : Dict (Finset String)) (exF : CExtractor),
      CacheOK flat hier ex0 →
      (∀ j s, dictGet? acc0 j = some s → AggVal flat hier j s) →
      ks.Nodup →
      (∀ j ∈ ks, dictGet? acc0 j = none) →
      pyFoldM
        (fun acc k =>
          match getAllContrib flat hier fuel acc.2 k with
          | .ok sc => .ok (dictInsert acc.1 k sc.1, sc.2)
          | .exn => .exn
          | .fuelOut => .fuelOut)
        (acc0, ex0) ks = .ok (summ, exF) →
      CacheOK flat hier exF ∧
        (∀ j s, dictGet? summ j = some s → AggVal flat hier j s) ∧
        dictKeys summ = dictKeys acc0 ++ ks := by
  intro ks
  induction ks with
  | nil =>
    intro acc0 ex0 summ exF hok hvals _ _ h
    cases h
    exact ⟨hok, hvals, by simp⟩
  | cons k ks ih =>
    intro acc0 ex0 summ exF hok hvals hnd hfresh h
    unfold pyFoldM at h
    cases hg : getAllContrib flat hier fuel ex0 k with
    | ok sc =>
      simp only [hg] at h
      obtain ⟨s1, ex1⟩ := sc
      obtain ⟨hok1, _, _, hagg1⟩ := getAllContrib_spec flat hier fuel ex0 k s1 ex1 hok hg
      have hvals1 : ∀ j s, dictGet? (dictInsert acc0 k s1) j = some s →
          AggVal flat hier j s := by
        intro j s hj
        by_cases hjk : j = k
        · subst hjk
          rw [dictGet?_dictInsert_self] at hj
          cases hj
          exact hagg1
        · rw [dictGet?_dictInsert_ne _ _ _ _ hjk] at hj
          exact hvals j s hj
      have hfresh1 : ∀ j ∈ ks, dictGet? (dictInsert acc0 k s1) j = none := by
        intro j hj
        have hjk : j ≠ k := by
          intro hk
          subst hk
          exact (List.nodup_cons.1 hnd).1 hj
        rw [dictGet?_dictInsert_ne _ _ _ _ hjk]
        exact hfresh j (List.mem_cons_of_mem k hj)
      obtain ⟨hokF, hvalsF, hkeysF⟩ :=
        ih (dictInsert acc0 k s1) ex1 summ exF hok1 hvals1 (List.nodup_cons.1 hnd).2
          hfresh1 h
      refine ⟨hokF, hvalsF, ?_⟩
      rw [hkeysF, dictKeys_dictInsert_of_none acc0 k s1 (hfresh k (List.mem_cons_self k ks))]
      simp
    | exn => simp only [hg] at h; cases h
    | fuelOut => simp only [hg] at h; cases h

/-- C4.  `get_contributor_summary` produces one entry per flat-map key (in
key order), and each entry is the fixpoint union: the ticket's own extracted
contributors unioned with the subtree-contributor sets of its children in the
hierarchy map; each child's set is its own summary entry whenever the child
has one (any summary entry a child has equals the child value used here). -/
theorem contributor_summary_fixpoint (flat : Dict JValue) (hier : Dict (List String))
    (fuel : Nat) (summ : Dict (Finset String)) (exF : CExtractor)
    (hnd : (dictKeys flat).Nodup)
    (h : getContributorSummary flat hier fuel ⟨[]⟩ = .ok (summ, exF)) :
    dictKeys summ = dictKeys flat ∧
    ∀ k, k ∈ dictKeys flat →
      ∃ s own childVals,
        dictGet? summ k = some s ∧
        ownContributors flat k = .ok own ∧
        childVals.length = (childrenOf hier k).length ∧
        s = own ∪ unionList childVals ∧
        ∀ p ∈ List.zip (childrenOf hier k) childVals,
          AggVal flat hier p.1 p.2 ∧
            ∀ t, dictGet? summ p.1 = some t → t = p.2 := by
  unfold getContributorSummary at h
  obtain ⟨hokF, hvalsF, hkeysF⟩ :=
    summary_fold_spec flat hier fuel (dictKeys flat) [] ⟨[]⟩ summ exF
      (by intro j s hj; cases hj) (by intro j s hj; cases hj) hnd
      (by intro j _; rfl) h
  have hkeys : dictKeys summ = dictKeys flat := by
    simpa [dictKeys] using hkeysF
  refine ⟨hkeys, ?_⟩
  intro k hk
  have hsome : (dictGet? summ k).isSome :=
    dictGet?_isSome_of_mem_keys summ k (by rw [hkeys]; exact hk)
  obtain ⟨s, hs⟩ := Option.isSome_iff_exists.1 hsome
  have haggk : AggVal flat hier k s := hvalsF k s hs
  obtain ⟨n, hn⟩ := haggk
  cases n with
  | zero => unfold aggPure at hn; cases hn
  | succ m =>
    unfold aggPure at hn
    cases how : ownContributors flat k with
    | ok own =>
      simp only [how] at hn
      cases hlist : aggPureList (aggPure flat hier m) (childrenOf hier k) with
      | ok rest =>
        simp only [hlist] at hn
        cases hn
        obtain ⟨vals, hlen, hval, hptw⟩ := aggPureList_values _ (childrenOf hier k) rest hlist
        refine ⟨own ∪ rest, own, vals, hs, rfl, hlen, by rw [hval], ?_⟩
        intro p hp
        have haggp : AggVal flat hier p.1 p.2 := ⟨m, hptw p hp⟩
        refine ⟨haggp, ?_⟩
        intro t ht
        exact aggVal_unique flat hier p.1 t p.2 (hvalsF p.1 t ht) haggp
      | exn => simp only [hlist] at hn; cases hn
      | fuelOut => simp only [hlist] at hn; cases hn
    | exn => simp only [how] at hn; cases hn
    | fuelOut => simp only [how] at hn; cases hn

/-- Witness for C4 at the claim's concrete scenario: parent "P" (own
contributors {B}) with single leaf child "C" (contributors {A}); the summary
has an entry for every flat-map key, with {A, B} for "P" and {A} for "C". -/
theorem contributor_summary_fixpoint_witness :
    (dictKeys c4Flat).Nodup ∧
    getContributorSummary c4Flat c4Hier 10 ⟨[]⟩ =
      .ok ([("P", {"B", "A"}), ("C", {"A"})], ⟨[("C", {"A"}), ("P", {"B", "A"})]⟩) ∧
    dictKeys [("P", ({"B", "A"} : Finset String)), ("C", {"A"})] = dictKeys c4Flat ∧
    summaryEntry c4Flat c4Hier 10 "P" = .ok (some {"A", "B"}) ∧
    summaryEntry c4Flat c4Hier 10 "C" = .ok (some {"A"}) :=
  ⟨by decide, rfl,
   (contributor_summary_fixpoint c4Flat c4Hier 10
      [("P", {"B", "A"}), ("C", {"A"})] ⟨[("C", {"A"}), ("P", {"B", "A"})]⟩
      (by decide) rfl).1,
   by
     show PyResult.ok (some ({"B", "A"} : Finset String)) = .ok (some {"A", "B"})
     rw [show ({"B", "A"} : Finset String) = {"A", "B"} from by decide],
   rfl⟩

/-! ### C5: memoization returns stale results until the cache is cleared -/

/-- C5.  Once an aggregation for a key has completed, any later call for the
same key — with arbitrarily mutated ticket data and hierarchy — returns the
previously memoized set and leaves the extractor untouched; `clear_cache`
resets the memo to empty (after which recomputation starts from scratch). -/
theorem memoized_result_is_stale
    (flat flat' : Dict JValue) (hier hier' : Dict (List String))
    (fuel fuel' : Nat) (ex ex' : CExtractor) (k : String) (s : Finset String)
    (h : getAllContrib flat hier fuel ex k = .ok (s, ex')) :
    getAllContrib flat' hier' (fuel' + 1) ex' k = .ok (s, ex') ∧
    clearContributorCache ex' = ⟨[]⟩ := by
  have hcached := getAllContrib_caches flat hier fuel ex k s ex' h
  refine ⟨?_, rfl⟩
  unfold getAllContrib
  simp only [hcached]

/-- Witness for C5: after aggregating "P" over the original data, the same
call against data where "C"'s contributor changed from "A" to "Z" still
returns {B, A} with the extractor unchanged, although a fresh extractor
computes {B, Z}. -/
theorem memoized_result_is_stale_witness :
    getAllContrib c4Flat c4Hier 10 ⟨[]⟩ "P" =
      .ok ({"B", "A"}, ⟨[("C", {"A"}), ("P", {"B", "A"})]⟩) ∧
    getAllContrib c4FlatMutated c4Hier 11
        ⟨[("C", {"A"}), ("P", {"B", "A"})]⟩ "P" =
      .ok ({"B", "A"}, ⟨[("C", {"A"}), ("P", {"B", "A"})]⟩) ∧
    getAllContrib c4FlatMutated c4Hier 10 ⟨[]⟩ "P" =
      .ok ({"B", "Z"}, ⟨[("C", {"Z"}), ("P", {"B", "Z"})]⟩) :=
  ⟨rfl,
   (memoized_result_is_stale c4Flat c4FlatMutated c4Hier c4Hier 10 10 ⟨[]⟩
      ⟨[("C", {"A"}), ("P", {"B", "A"})]⟩ "P" {"B", "A"} rfl).1,
   rfl⟩

/-! ### C9: the returned set never aliases the memo -/

theorem hGet_hSet_ne (h : SetHeap) (i j : Nat) (s : Finset String) (hne : i ≠ j) :
    hGet (hSet h i s) j = hGet h j := by
  unfold hGet hSet
  simp only
  induction h.heap with
  | nil => rfl
  | cons p rest ih =>
    rw [List.map_cons]
    cases hp : p.1 == i
    · cases hpj : p.1 == j
      · simpa [List.find?, hp, hpj] using ih
      · simp [List.find?, hp, hpj]
    · have hpi : p.1 = i := by simpa using hp
      have hij : (i == j) = false := by
        simpa using hne
      simpa [List.find?, hpi, hij] using ih

theorem hSet_cache (h : SetHeap) (i : Nat) (s : Finset String) :
    (hSet h i s).cache = h.cache := rfl

theorem hSet_next (h : SetHeap) (i : Nat) (s : Finset String) :
    (hSet h i s).next = h.next := rfl

theorem hSet_WF (h : SetHeap) (i : Nat) (s : Finset String) (hwf : HeapWF h) :
    HeapWF (hSet h i s) := by
  constructor
  · intro p hp
    rcases List.mem_map.1 hp with ⟨q, hq, hpq⟩
    cases hqi : q.1 == i
    · rw [hqi] at hpq
      simp only [Bool.false_eq_true, if_false] at hpq
      exact hpq ▸ hwf.1 q hq
    · rw [hqi] at hpq
      simp only [if_pos rfl] at hpq
      have hqi' : q.1 = i := by simpa using hqi
      have := hwf.1 q hq
      rw [← hpq]
      simpa [← hqi'] using this
  · exact hwf.2

theorem hAlloc_WF (h : SetHeap) (s : Finset String) (hwf : HeapWF h) :
    HeapWF (hAlloc h s).2 := by
  constructor
  · intro p hp
    rcases List.mem_append.1 hp with hp | hp
    · exact Nat.lt_succ_of_lt (hwf.1 p hp)
    · rcases List.mem_singleton.1 hp with rfl
      exact Nat.lt_succ_self _
  · intro q hq
    exact Nat.lt_succ_of_lt (hwf.2 q hq)

theorem dictGet?_mem {α : Type} (d : Dict α) (k : String) (v : α)
    (h : dictGet? d k = some v) : (k, v) ∈ d := by
  induction d with
  | nil => cases h
  | cons p rest ih =>
    rw [dictGet?_cons] at h
    cases hp : p.1 == k
    · rw [hp] at h
      simp only [Bool.false_eq_true, if_false] at h
      exact List.mem_cons_of_mem p (ih h)
    · rw [hp] at h
      simp only [if_pos rfl] at h
      have hpk : p.1 = k := by simpa using hp
      have hv : p.2 = v := by cases h; rfl
      have hp' : p = (k, v) := by
        obtain ⟨p1, p2⟩ := p
        simp only at hpk hv
        rw [hpk, hv]
      rw [← hp']
      exact List.mem_cons_self p rest

theorem mem_dictInsert {α : Type} (d : Dict α) (k : String) (v : α) (q : String × α)
    (h : q ∈ dictInsert d k v) : q ∈ d ∨ q = (k, v) := by
  unfold dictInsert at h
  cases hmem : d.any (fun p => p.1 == k)
  · rw [hmem] at h
    simp only [Bool.false_eq_true, if_false] at h
    rcases List.mem_append.1 h with h | h
    · exact Or.inl h
    · exact Or.inr (List.mem_singleton.1 h)
  · rw [hmem] at h
    simp only [if_pos rfl] at h
    rcases List.mem_map.1 h with ⟨p, hp, hpq⟩
    cases hpk : p.1 == k
    · rw [hpk] at hpq
      simp only [Bool.false_eq_true, if_false] at hpq
      exact Or.inl (hpq ▸ hp)
    · rw [hpk] at hpq
      simp only [if_pos rfl] at hpq
      exact Or.inr hpq.symm

theorem hGet_hAlloc_self (h : SetHeap) (s : Finset String) (hwf : HeapWF h) :
    hGet (hAlloc h s).2 (hAlloc h s).1 = s := by
  unfold hGet hAlloc
  simp only
  have hnone : h.heap.find? (fun p => p.1 == h.next) = none := by
    rw [List.find?_eq_none]
    intro p hp
    have := hwf.1 p hp
    simp only [beq_iff_eq]
    exact Nat.ne_of_lt this
  rw [List.find?_append, hnone]
  simp [List.find?]

theorem getAllContribH_spec (flat : Dict JValue) (hier : Dict (List String)) :
    ∀ (fuel : Nat) (h : SetHeap) (k : String) (rid : Nat) (h' : SetHeap),
      HeapWF h →
      getAllContribH flat hier fuel h k = .ok (rid, h') →
      HeapWF h' ∧ h.next ≤ h'.next ∧ rid < h'.next ∧
        ∃ mid, dictGet? h'.cache k = some mid ∧ mid ≠ rid := by
  intro fuel
  induction fuel with
  | zero =>
    intro h k rid h' hwf hrun
    unfold getAllContribH at hrun
    cases hrun
  | succ fuel ih =>
    intro h k rid h' hwf hrun
    unfold getAllContribH at hrun
    cases hc : dictGet? h.cache k with
    | some sid =>
      simp only [hc] at hrun
      cases hrun
      have hsid : sid < h.next := hwf.2 (k, sid) (dictGet?_mem _ _ _ hc)
      refine ⟨hAlloc_WF h _ hwf, Nat.le_succ _, Nat.lt_succ_self _, sid, hc, ?_⟩
      exact Nat.ne_of_lt hsid
    | none =>
      simp only [hc] at hrun
      cases how : ownContributors flat k with
      | ok own =>
        simp only [how] at hrun
        cases hfold : pyFoldM
            (fun hh c =>
              match getAllContribH flat hier fuel hh c with
              | .ok ch => .ok (hSet ch.2 h.next (hGet ch.2 h.next ∪ hGet ch.2 ch.1))
              | .exn => .exn
              | .fuelOut => .fuelOut)
            (hSet (hAlloc h ∅).2 h.next (hGet (hAlloc h ∅).2 h.next ∪ own))
            (childrenOf hier k) with
        | ok h3 =>
          simp only [hfold] at hrun
          cases hrun
          have hstart : HeapWF (hSet (hAlloc h ∅).2 h.next
              (hGet (hAlloc h ∅).2 h.next ∪ own)) ∧
              h.next + 1 ≤ (hSet (hAlloc h ∅).2 h.next
                (hGet (hAlloc h ∅).2 h.next ∪ own)).next :=
            ⟨hSet_WF _ _ _ (hAlloc_WF h ∅ hwf), le_refl _⟩
          have h3spec : HeapWF h3 ∧ h.next + 1 ≤ h3.next := by
            refine pyFoldM_preserve (fun hh => HeapWF hh ∧ h.next + 1 ≤ hh.next) _
              ?_ _ _ h3 hstart hfold
            intro st a st' hPst heq
            cases hg : getAllContribH flat hier fuel st a with
            | ok ch =>
              rw [hg] at heq
              cases heq
              obtain ⟨hwf2, hle2, _, _⟩ := ih st a ch.1 ch.2 hPst.1 (by rw [hg])
              exact ⟨hSet_WF _ _ _ hwf2, by rw [hSet_next]; exact le_trans hPst.2 hle2⟩
            | exn => rw [hg] at heq; cases heq
            | fuelOut => rw [hg] at heq; cases heq
          refine ⟨?_, ?_, ?_, h3.next, ?_, ?_⟩
          · constructor
            · intro p hp
              rcases List.mem_append.1 hp with hp | hp
              · exact Nat.lt_succ_of_lt (h3spec.1.1 p hp)
              · rcases List.mem_singleton.1 hp with rfl
                exact Nat.lt_succ_self _
            · intro q hq
              rcases mem_dictInsert _ _ _ q hq with hq | hq
              · exact Nat.lt_succ_of_lt (h3spec.1.2 q hq)
              · rw [hq]
                exact Nat.lt_succ_self _
          · exact le_trans (Nat.le_succ _) (le_trans h3spec.2 (Nat.le_succ _))
          · exact Nat.lt_of_lt_of_le (Nat.lt_succ_self _)
              (le_trans h3spec.2 (Nat.le_succ _))
          · exact dictGet?_dictInsert_self _ _ _
          · exact Nat.ne_of_gt (Nat.lt_of_lt_of_le (Nat.lt_succ_self _) h3spec.2)
        | exn => simp only [hfold] at hrun; cases hrun
        | fuelOut => simp only [hfold] at hrun; cases hrun
      | exn => simp only [how] at hrun; cases hrun
      | fuelOut => simp only [how] at hrun; cases hrun

/-- C9.  The set object returned by
`get_all_contributors_for_ticket_hierarchy` never aliases the memo: the memo
holds a different object `mid`, so mutating the returned object (overwriting
its contents with an arbitrary `S`) leaves every subsequent call for the same
key returning a fresh copy of the memoized contents, unchanged. -/
theorem returned_set_independent_of_memo
    (flat flat' : Dict JValue) (hier hier' : Dict (List String))
    (fuel : Nat) (h : SetHeap) (k : String) (rid : Nat) (h₁ : SetHeap)
    (hwf : HeapWF h)
    (hrun : getAllContribH flat hier fuel h k = .ok (rid, h₁)) :
    ∃ mid, dictGet? h₁.cache k = some mid ∧ mid ≠ rid ∧
      ∀ (S : Finset String) (fuel' : Nat),
        getAllContribH flat' hier' (fuel' + 1) (hSet h₁ rid S) k =
          .ok (hAlloc (hSet h₁ rid S) (hGet h₁ mid)) ∧
        hGet (hAlloc (hSet h₁ rid S) (hGet h₁ mid)).2
          (hAlloc (hSet h₁ rid S) (hGet h₁ mid)).1 = hGet h₁ mid := by
  obtain ⟨hwf1, _, _, mid, hmid, hne⟩ :=
    getAllContribH_spec flat hier fuel h k rid h₁ hwf hrun
  refine ⟨mid, hmid, hne, ?_⟩
  intro S fuel'
  constructor
  · unfold getAllContribH
    have hc : dictGet? (hSet h₁ rid S).cache k = some mid := hmid
    simp only [hc]
    rw [hGet_hSet_ne h₁ rid mid S (Ne.symm hne)]
  · exact hGet_hAlloc_self (hSet h₁ rid S) (hGet h₁ mid) (hSet_WF h₁ rid S hwf1)

/-- Witness for C9 at the concrete parent/child input: the run returns object
0 while the memo maps "P" to object 3. -/
theorem returned_set_independent_of_memo_witness :
    hRunShape (getAllContribH c4Flat c4Hier 10 ⟨[], [], 0⟩ "P") =
      .ok (0, [("C", 2), ("P", 3)], 4) ∧
    ∃ rid h₁ mid,
      getAllContribH c4Flat c4Hier 10 ⟨[], [], 0⟩ "P" = .ok (rid, h₁) ∧
        dictGet? h₁.cache "P" = some mid ∧ mid ≠ rid := by
  refine ⟨by decide, ?_⟩
  cases hrun : getAllContribH c4Flat c4Hier 10 ⟨[], [], 0⟩ "P" with
  | ok p =>
    obtain ⟨mid, hmid, hne, _⟩ :=
      returned_set_independent_of_memo c4Flat c4Flat c4Hier c4Hier 10
        ⟨[], [], 0⟩ "P" p.1 p.2
        ⟨fun q hq => absurd hq (List.not_mem_nil q),
         fun q hq => absurd hq (List.not_mem_nil q)⟩
        (by rw [hrun])
    exact ⟨p.1, p.2, mid, rfl, hmid, hne⟩
  | exn => exact absurd (congrArg hRunShape hrun) (by decide)
  | fuelOut => exact absurd (congrArg hRunShape hrun) (by decide)

/-! ### C8: cache round-trip -/

/-- C8 counterexample: a JSON-object payload whose `fields` member is `null`
makes `put_ticket` raise (`None.get("updated")`) before anything is saved, so
the put/fresh-get sequence cannot even complete, let alone round-trip. -/
theorem roundTrip_false : ¬ roundTripProp := by
  intro h
  obtain ⟨st', fs', hput, _⟩ :=
    h ⟨.missing, .missing⟩ "K" (.obj [("fields", .null)]) "t0"
  have hexn : putTicket (ticketCacheInit ⟨.missing, .missing⟩) "K"
      (.obj [("fields", .null)]) "t0" = .exn := rfl
  rw [hexn] at hput
  cases hput

theorem putTicketResult_tickets (st : TicketCacheState) (k : String)
    (data : JValue) (now : String) (st' : TicketCacheState)
    (h : putTicketResult st k data now = .ok st') :
    st'.tickets = dictInsert st.tickets k data := by
  unfold putTicketResult at h
  repeat' split at h
  all_goals cases h
  all_goals rfl

/-- C8 amended: for every JSON-object payload whose `fields` member, when
present, is itself an object (every payload the JIRA API returns),
`put_ticket` completes, and `get_ticket` on a fresh instance over the same
directory returns the stored payload. -/
theorem cache_round_trip (fs : CacheFS) (key : String) (data : JValue)
    (now : String) (hshape : putSafeShape data = true) :
    ∃ st' fs', putTicket (ticketCacheInit fs) key data now = .ok (st', fs') ∧
      getTicket (ticketCacheInit fs') key = some data := by
  cases hres : putTicketResult (ticketCacheInit fs) key data now with
  | ok st' =>
    refine ⟨st', saveCache st', ?_, ?_⟩
    · unfold putTicket
      rw [hres]
    · show dictGet? st'.tickets key = some data
      rw [putTicketResult_tickets _ _ _ _ _ hres]
      exact dictGet?_dictInsert_self _ _ _
  | exn =>
    exfalso
    unfold putTicketResult at hres
    unfold putSafeShape at hshape
    repeat' split at hres
    all_goals try cases hres
    all_goals simp_all
  | fuelOut =>
    exfalso
    unfold putTicketResult at hres
    repeat' split at hres
    all_goals cases hres

/-- Witness for the amended C8 on a concrete payload over an arbitrary
prior directory state. -/
theorem cache_round_trip_witness :
    putSafeShape c10Data1 = true ∧
    (∃ st' fs',
      putTicket (ticketCacheInit ⟨.missing, .missing⟩) "K" c10Data1 "t0" =
        .ok (st', fs') ∧
      getTicket (ticketCacheInit fs') "K" = some c10Data1) :=
  ⟨rfl, cache_round_trip ⟨.missing, .missing⟩ "K" c10Data1 "t0" rfl⟩

/-! ### C10: a payload without `fields.updated` and staleness -/

/-- C10 counterexample: after a first put recorded metadata for "K", a second
put of "K" without `fields.updated` stores the new payload but leaves the old
metadata in place, and `is_ticket_stale` consults it: with the cached instant
5 and current instant 3 it returns `False`, not `True`. -/
theorem putWithoutUpdatedAlwaysStale_false : ¬ putWithoutUpdatedAlwaysStaleProp := by
  intro h
  have hinst := h c10St1 "K" c10Data2 "t1" c10ParseIso 3 c10St2 (saveCache c10St2)
    rfl rfl
  exact absurd hinst.2 (by decide)

/-- C10 amended: `put_ticket` on a payload without a truthy `fields.updated`
stores the ticket and records no metadata — any pre-existing metadata entry
for the key is left in place.  Consequently `is_ticket_stale` returns `True`
for every current timestamp only when no metadata entry for the key exists
(e.g. a fresh cache); an entry from an earlier put is still consulted. -/
theorem put_without_updated (st : TicketCacheState) (key : String)
    (data : JValue) (now : String) (parseIso : String → Option Int)
    (hl : lacksUpdated data = true) :
    ∃ st' fs', putTicket st key data now = .ok (st', fs') ∧
      st'.metadata = st.metadata ∧
      getTicket st' key = some data ∧
      (dictMem st.metadata key = false →
        ∀ cur, isTicketStale parseIso st' key cur = .ok true) := by
  have hres : putTicketResult st key data now =
      .ok { st with tickets := dictInsert st.tickets key data } := by
    unfold putTicketResult
    unfold lacksUpdated at hl
    split
    all_goals simp_all
    all_goals split
    all_goals simp_all
  refine ⟨{ st with tickets := dictInsert st.tickets key data },
    saveCache { st with tickets := dictInsert st.tickets key data }, ?_, rfl, ?_, ?_⟩
  · unfold putTicket
    rw [hres]
  · exact dictGet?_dictInsert_self _ _ _
  · intro hmem cur
    unfold isTicketStale
    have : (!dictMem (dictInsert st.tickets key data) key ||
        !dictMem st.metadata key) = true := by
      rw [hmem]
      simp
    rw [if_pos this]

/-- Witness for the amended C10 on a fresh cache: the put completes, the
metadata stays empty, and staleness is `True` at an arbitrary instant. -/
theorem put_without_updated_witness :
    lacksUpdated c10Data2 = true ∧
    (∃ st' fs', putTicket ⟨[], []⟩ "K" c10Data2 "t1" = .ok (st', fs') ∧
      st'.metadata = ([] : Dict JValue) ∧
      getTicket st' "K" = some c10Data2 ∧
      (dictMem ([] : Dict JValue) "K" = false →
        ∀ cur, isTicketStale c10ParseIso st' "K" cur = .ok true)) :=
  ⟨rfl, put_without_updated ⟨[], []⟩ "K" c10Data2 "t1" c10ParseIso rfl⟩
